import Mathlib

/-!
Verification development for the conversation-memory subsystem of the
Dubai Estate bot (source: `conversation.py`).  Python strings are
modelled as `List Char`, timestamps as `ℤ` (seconds), and the regular
expressions of the source are translated into executable matchers that
follow Python `re` leftmost/greedy semantics on the concrete patterns
used by the code.
-/

set_option maxHeartbeats 1000000

namespace Conv

/-- The Python whitespace characters stripped by `str.strip()` (ASCII range):
space, tab, newline, carriage return, vertical tab, form feed. -/
def pyIsSpace (c : Char) : Bool :=
  c.toNat = 32 || c.toNat = 9 || c.toNat = 10 || c.toNat = 13 ||
    c.toNat = 11 || c.toNat = 12

/-- ASCII lower-casing of one character, as Python `str.lower()` does on ASCII. -/
def lowChar (c : Char) : Char :=
  if 'A' ≤ c ∧ c ≤ 'Z' then Char.ofNat (c.toNat + 32) else c

/-- ASCII upper-casing of one character, as Python `str.upper()` does on ASCII. -/
def upChar (c : Char) : Char :=
  if 'a' ≤ c ∧ c ≤ 'z' then Char.ofNat (c.toNat - 32) else c

/-- Python `str.lower()` on the ASCII range. -/
def pyLower (s : List Char) : List Char := s.map lowChar

/-- Python `str.upper()` on the ASCII range. -/
def pyUpper (s : List Char) : List Char := s.map upChar

/-- Python `str.strip()`: remove leading and trailing whitespace. -/
def pyStrip (s : List Char) : List Char :=
  (((s.dropWhile pyIsSpace).reverse).dropWhile pyIsSpace).reverse

/-- One step of Python `str.title()`: upper-case a letter that follows a
non-letter, lower-case a letter that follows a letter. -/
def pyTitleGo : Bool → List Char → List Char
  | _, [] => []
  | prevAlpha, c :: cs =>
      (if c.isAlpha then (if prevAlpha then lowChar c else upChar c) else c)
        :: pyTitleGo c.isAlpha cs

/-- Python `str.title()` on the ASCII range. -/
def pyTitle (s : List Char) : List Char := pyTitleGo false s

/-- A regex word character (`\w`) in the ASCII range: letter, digit or underscore. -/
def wordChar (c : Char) : Bool := c.isAlpha || c.isDigit || c = '_'

/-- A word boundary (`\b`) next to a word character holds when the adjacent
character is absent or is not a word character. -/
def edgeOk (o : Option Char) : Bool :=
  match o with
  | none => true
  | some c => !wordChar c

/-- Python substring containment `p in s`. -/
def listContains (p s : List Char) : Bool :=
  (List.range (s.length + 1)).any fun i => p.isPrefixOf (s.drop i)

/-- Search for `\b(w₁|w₂|…)\b` anywhere in `s`, for alternatives that start and
end with word characters (all alternatives used by the source do). -/
def boundedSearch (alts : List (List Char)) (s : List Char) : Bool :=
  (List.range (s.length + 1)).any fun i =>
    alts.any fun w =>
      w.isPrefixOf (s.drop i) && edgeOk ((s.take i).getLast?)
        && edgeOk ((s.drop (i + w.length)).head?)

/-- The Dubai location gazetteer `DUBAI_LOCATIONS`, in source-literal order.
The source stores these in a Python `set`, whose iteration order is
unspecified; this embedding fixes the literal order of the source text. -/
def DUBAI_LOCATIONS : List (List Char) :=
  (["marina", "jbr", "downtown", "business bay", "jlt", "arjan",
    "dubailand", "silicon oasis", "sports city", "motor city",
    "discovery gardens", "al furjan", "jumeirah", "palm",
    "creek harbour", "sobha hartland", "meydan", "dubai hills",
    "arabian ranches", "damac hills", "town square", "remraam",
    "international city", "al quoz", "barsha", "tecom",
    "greens", "views", "springs", "meadows", "lakes",
    "difc", "world trade centre", "zabeel", "ras al khor",
    "production city", "studio city", "mudon", "villanova",
    "tilal al ghaf", "emaar beachfront", "bluewaters",
    "city walk", "la mer", "dubai south", "expo city"] : List String).map
    String.toList

/-- `contains_location`: the message contains a known Dubai location. -/
def contains_location (msg : List Char) : Bool :=
  DUBAI_LOCATIONS.any fun loc => listContains loc (pyLower msg)

/-- The property-type alternatives of `_has_property_type`. -/
def propertyTypeWords : List (List Char) :=
  (["studio", "1br", "2br", "3br", "4br", "5br", "1bed", "2bed", "3bed",
    "4bed", "5bed", "apartment", "villa", "townhouse", "penthouse",
    "duplex"] : List String).map String.toList

/-- `_has_property_type`: search of `\b(studio|1br|…|duplex)\b` on the
lower-cased message. -/
def has_property_type (msg : List Char) : Bool :=
  boundedSearch propertyTypeWords (pyLower msg)

/-- The word alternatives of the first branch of the `_has_price` regex. -/
def priceWords : List (List Char) :=
  (["aed", "under", "below", "above", "over", "budget"] : List String).map
    String.toList

/-- Matcher for `\d{3,}k` at one position: a maximal digit run of length at
least 3 followed by `k`. -/
def matchD3KAt (s : List Char) : Bool :=
  let p := s.span Char.isDigit
  3 ≤ p.1.length && p.2.head? = some 'k'

/-- Matcher for `\d[\d,]*\.\d+m` at one position. -/
def matchDecMAt (s : List Char) : Bool :=
  match s with
  | [] => false
  | d :: rest =>
      d.isDigit &&
        (let p := rest.span fun c => c.isDigit || c = ','
         match p.2 with
         | '.' :: t =>
             let q := t.span Char.isDigit
             !q.1.isEmpty && q.2.head? = some 'm'
         | _ => false)

/-- Matcher for `\d{6,}` at one position: a maximal digit run of length ≥ 6. -/
def matchD6At (s : List Char) : Bool :=
  6 ≤ (s.span Char.isDigit).1.length

/-- `_has_price`: search of
`\b(aed|under|below|above|over|budget)\b|\d{3,}k|\d[\d,]*\.\d+m|\d{6,}`
on the lower-cased message. -/
def has_price (msg : List Char) : Bool :=
  let m := pyLower msg
  boundedSearch priceWords m
    || (List.range (m.length + 1)).any (fun i => matchD3KAt (m.drop i))
    || (List.range (m.length + 1)).any (fun i => matchDecMAt (m.drop i))
    || (List.range (m.length + 1)).any (fun i => matchD6At (m.drop i))

/-- The leading discourse markers of `FOLLOWUP_PATTERNS[0]`, anchored at the
start of the message. -/
def followupStarters : List (List Char) :=
  (["what about", "how about", "and ", "also ", "instead ", "compare",
    "which one", "what if"] : List String).map String.toList

/-- The anaphoric pronouns of `FOLLOWUP_PATTERNS[1]` (word-bounded). -/
def pronounWords : List (List Char) :=
  (["it", "that", "this", "these", "those", "the same", "the other"] :
    List String).map String.toList

/-- The comparative/continuation words of `FOLLOWUP_PATTERNS[2]`
(word-bounded). -/
def comparativeWords : List (List Char) :=
  (["better", "worse", "cheaper", "more expensive", "similar",
    "alternatively", "vs", "versus"] : List String).map String.toList

/-- A message matches some pattern of `FOLLOWUP_PATTERNS`. -/
def followupSignal (m : List Char) : Bool :=
  followupStarters.any (fun w => w.isPrefixOf m)
    || boundedSearch pronounWords m
    || boundedSearch comparativeWords m

/-- `re.match(r'^(analyze|search|find|look up)\b', m)`: one of the verbs at the
start of the message, followed by a word boundary. -/
def analyzeMatch (m : List Char) : Bool :=
  ((["analyze", "search", "find", "look up"] : List String).map
      String.toList).any
    fun w => w.isPrefixOf m && edgeOk ((m.drop w.length).head?)

/-- `is_followup(message, has_session)`: the rule chain of the source, in
source order: no-session guard, complete-fresh-request override, explicit
analyze override, follow-up signal patterns, short-message rule. -/
def is_followup (message : List Char) (has_session : Bool) : Bool :=
  if !has_session then false
  else
    let msgLower := pyStrip (pyLower message)
    let has_loc := contains_location msgLower
    let has_type := has_property_type msgLower
    let hasPriceTok := has_price msgLower
    if has_loc && (has_type || hasPriceTok) then false
    else if analyzeMatch msgLower && has_loc then false
    else if followupSignal msgLower then true
    else if decide (msgLower.length < 40) && !has_loc then true
    else false

/-!
## Key-fact extractor (`_extract_key_facts`)
-/

/-- Leftmost-match result of `re.search(r'AED\s*[\d,]+(?:\.\d+)?(?:\s*[MmKk])?', r)`
attempted at one position: the matched text, or `none`.  The pattern is
case-sensitive on `AED` (the source passes no `re.IGNORECASE` here). -/
def matchPriceAt (s : List Char) : Option (List Char) :=
  if "AED".toList.isPrefixOf s then
    let s1 := s.drop 3
    let pws := s1.span pyIsSpace
    let pdg := pws.2.span fun c => c.isDigit || c = ','
    if pdg.1.isEmpty then none
    else
      let dec :=
        match pdg.2 with
        | '.' :: t =>
            let q := t.span Char.isDigit
            if q.1.isEmpty then ([], pdg.2) else ('.' :: q.1, q.2)
        | _ => ([], pdg.2)
      let suf :=
        let pws2 := dec.2.span pyIsSpace
        match pws2.2.head? with
        | some c =>
            if c = 'M' || c = 'm' || c = 'K' || c = 'k' then
              pws2.1 ++ [c]
            else []
        | none => []
      some ("AED".toList ++ pws.1 ++ pdg.1 ++ dec.1 ++ suf)
  else none

/-- `re.search` for the AED price pattern: leftmost match over all start
positions. -/
def searchPrice (r : List Char) : Option (List Char) :=
  (List.range (r.length + 1)).findSome? fun i => matchPriceAt (r.drop i)

/-- Matcher for `Score[:\s]*(\d+)/100` (IGNORECASE) at one position,
returning capture group 1 (the digits). -/
def matchScoreAt (s : List Char) : Option (List Char) :=
  if "score".toList.isPrefixOf (pyLower s) then
    let s1 := s.drop 5
    let psep := s1.span fun c => c = ':' || pyIsSpace c
    let pdg := psep.2.span Char.isDigit
    if pdg.1.isEmpty then none
    else if "/100".toList.isPrefixOf pdg.2 then some pdg.1 else none
  else none

/-- `re.search(r'Score[:\s]*(\d+)/100', r, re.IGNORECASE)`. -/
def searchScore (r : List Char) : Option (List Char) :=
  (List.range (r.length + 1)).findSome? fun i => matchScoreAt (r.drop i)

/-- Matcher for `\bNO[- ]?GO\b` (IGNORECASE) at one position (the position is
assumed to carry a left word boundary, checked by the caller). -/
def matchNoGoAt (s : List Char) : Bool :=
  if "no".toList.isPrefixOf (pyLower s) then
    let s2 := s.drop 2
    (match s2 with
     | c :: t =>
         (c = '-' || c = ' ') && "go".toList.isPrefixOf (pyLower t)
           && edgeOk ((t.drop 2).head?)
     | [] => false)
      || ("go".toList.isPrefixOf (pyLower s2) && edgeOk ((s2.drop 2).head?))
  else false

/-- `re.search(r'\bNO[- ]?GO\b', r, re.IGNORECASE)` as a Boolean. -/
def hasNoGo (r : List Char) : Bool :=
  (List.range (r.length + 1)).any fun i =>
    edgeOk ((r.take i).getLast?) && matchNoGoAt (r.drop i)

/-- `re.search(r'\bGO\b', r)` as a Boolean (case-sensitive). -/
def hasGoCS (r : List Char) : Bool :=
  (List.range (r.length + 1)).any fun i =>
    edgeOk ((r.take i).getLast?) && "GO".toList.isPrefixOf (r.drop i)
      && edgeOk ((r.drop (i + 2)).head?)

/-- Matcher for `(GOOD|CAUTIOUS|STRONG|WEAK|EXCELLENT)\s+BUY` (IGNORECASE) at
one position, returning the matched text in its original casing. -/
def matchBuyAt (s : List Char) : Option (List Char) :=
  ((["good", "cautious", "strong", "weak", "excellent"] : List String).map
      String.toList).findSome?
    fun w =>
      if w.isPrefixOf (pyLower s) then
        let rest := s.drop w.length
        let pws := rest.span pyIsSpace
        if pws.1.isEmpty then none
        else if "buy".toList.isPrefixOf (pyLower pws.2) then
          some (s.take w.length ++ pws.1 ++ pws.2.take 3)
        else none
      else none

/-- `re.search` for the BUY pattern: leftmost match. -/
def searchBuy (r : List Char) : Option (List Char) :=
  (List.range (r.length + 1)).findSome? fun i => matchBuyAt (r.drop i)

/-- Matcher for `(\d+\.?\d*)\s*%\s*(gross|net)?\s*yield` (IGNORECASE) at one
position, returning capture groups 1 and 2 (group 2 in original casing). -/
def matchYieldAt (s : List Char) : Option (List Char × Option (List Char)) :=
  let pdg := s.span Char.isDigit
  if pdg.1.isEmpty then none
  else
    let dec :=
      match pdg.2 with
      | '.' :: t =>
          let q := t.span Char.isDigit
          ('.' :: q.1, q.2)
      | _ => ([], pdg.2)
    let g1 := pdg.1 ++ dec.1
    let pws1 := dec.2.span pyIsSpace
    match pws1.2 with
    | '%' :: s4 =>
        let pws2 := s4.span pyIsSpace
        let g2 :=
          if "gross".toList.isPrefixOf (pyLower pws2.2) then
            some (pws2.2.take 5)
          else if "net".toList.isPrefixOf (pyLower pws2.2) then
            some (pws2.2.take 3)
          else none
        let s6 := pws2.2.drop (match g2 with | some g => g.length | none => 0)
        let pws3 := s6.span pyIsSpace
        if "yield".toList.isPrefixOf (pyLower pws3.2) then some (g1, g2)
        else none
    | _ => none

/-- `re.search` for the yield pattern: leftmost match. -/
def searchYield (r : List Char) : Option (List Char × Option (List Char)) :=
  (List.range (r.length + 1)).findSome? fun i => matchYieldAt (r.drop i)

/-- Fact rule 1: first gazetteer location whose text occurs in the response,
in the embedding's fixed iteration order, rendered by `str.title()`. -/
def locFact (r : List Char) : Option (List Char) :=
  (DUBAI_LOCATIONS.find? fun loc =>
      listContains (pyLower loc) (pyLower r)).map pyTitle

/-- Fact rule 2: the AED price match, stripped. -/
def priceFact (r : List Char) : Option (List Char) :=
  (searchPrice r).map pyStrip

/-- Fact rule 3: `Score: {g1}/100`. -/
def scoreFact (r : List Char) : Option (List Char) :=
  (searchScore r).map fun ds => "Score: ".toList ++ ds ++ "/100".toList

/-- Fact rules 4: `NO-GO` if the NO-GO pattern occurs, else `GO` if the
case-sensitive GO pattern occurs. -/
def goFact (r : List Char) : Option (List Char) :=
  if hasNoGo r then some "NO-GO".toList
  else if hasGoCS r then some "GO".toList
  else none

/-- Fact rule 5: the BUY match, upper-cased. -/
def buyFact (r : List Char) : Option (List Char) :=
  (searchBuy r).map pyUpper

/-- Fact rule 6: the chiller warning. -/
def chillerFact (r : List Char) : Option (List Char) :=
  if listContains "empower".toList (pyLower r)
      || listContains "chiller".toList (pyLower r) then
    some "Empower chiller".toList
  else none

/-- Fact rule 7: `{g1}%[ g2] yield`. -/
def yieldFact (r : List Char) : Option (List Char) :=
  (searchYield r).map fun p =>
    p.1 ++ ['%'] ++ (match p.2 with | some w => ' ' :: w | none => [])
      ++ " yield".toList

/-- Fact rule 8: the oversupply warning. -/
def oversupplyFact (r : List Char) : Option (List Char) :=
  if listContains "oversuppl".toList (pyLower r) then
    some "oversupply risk".toList
  else none

/-- The `facts` list accumulated by `_extract_key_facts`, in source order. -/
def factsList (r : List Char) : List (List Char) :=
  [locFact r, priceFact r, scoreFact r, goFact r, buyFact r, chillerFact r,
    yieldFact r, oversupplyFact r].reduceOption

/-- `", ".join` of Python. -/
def joinComma : List (List Char) → List Char
  | [] => []
  | [p] => p
  | p :: ps => p ++ ", ".toList ++ joinComma ps

/-- `_extract_key_facts(response)`: join the facts with `", "`, or fall back
to the first 150 characters with newlines replaced by spaces; hard-truncate
to 250 characters. -/
def extract_key_facts (r : List Char) : List Char :=
  (if factsList r = [] then
      (r.take 150).map fun c => if c = '\n' then ' ' else c
   else joinComma (factsList r)).take 250

/-!
## Summary building and compaction (`ConversationStore.update`)
-/

/-- The summary segment separator `" | "`. -/
def SEP : List Char := " | ".toList

/-- Python `" | ".join(parts)`. -/
def joinSep : List (List Char) → List Char
  | [] => []
  | [p] => p
  | p :: ps => p ++ SEP ++ joinSep ps

/-- Index of the leftmost occurrence of `SEP` in `s`, if any. -/
def firstOcc : List Char → Option Nat
  | [] => none
  | c :: cs =>
      if SEP.isPrefixOf (c :: cs) then some 0 else (firstOcc cs).map (· + 1)

theorem firstOcc_some {s : List Char} {i : Nat} (h : firstOcc s = some i) :
    SEP.isPrefixOf (s.drop i) = true ∧
      ∀ j, j < i → SEP.isPrefixOf (s.drop j) = false := by
  induction s generalizing i with
  | nil => simp [firstOcc] at h
  | cons c cs ih =>
    by_cases hp : SEP.isPrefixOf (c :: cs)
    · simp only [firstOcc, if_pos hp] at h
      cases h
      exact ⟨hp, fun j hj => absurd hj (Nat.not_lt_zero j)⟩
    · simp only [firstOcc, if_neg hp, Option.map_eq_some'] at h
      obtain ⟨i', hi', rfl⟩ := h
      obtain ⟨h1, h2⟩ := ih hi'
      refine ⟨h1, fun j hj => ?_⟩
      cases j with
      | zero => simpa using (Bool.eq_false_iff.mpr hp)
      | succ j' => exact h2 j' (Nat.lt_of_succ_lt_succ hj)

theorem firstOcc_none {s : List Char} (h : firstOcc s = none) :
    ∀ j, SEP.isPrefixOf (s.drop j) = false := by
  induction s with
  | nil => intro j; simp [SEP]
  | cons c cs ih =>
    by_cases hp : SEP.isPrefixOf (c :: cs)
    · simp [firstOcc, hp] at h
    · simp only [firstOcc, if_neg hp, Option.map_eq_none'] at h
      intro j
      cases j with
      | zero => simpa using (Bool.eq_false_iff.mpr hp)
      | succ j' => exact ih h j'

theorem firstOcc_le {s : List Char} {i : Nat} (h : firstOcc s = some i) :
    i + 3 ≤ s.length := by
  have h1 := (firstOcc_some h).1
  have h2 : SEP <+: s.drop i := List.isPrefixOf_iff_prefix.mp h1
  have h3 : SEP.length ≤ (s.drop i).length := h2.length_le
  simp only [List.length_drop] at h3
  have hsep : SEP.length = 3 := by decide
  omega

/-- Python `new_summary.split(" | ")`: leftmost, non-overlapping. -/
def splitSep (s : List Char) : List (List Char) :=
  match h : firstOcc s with
  | none => [s]
  | some i => s.take i :: splitSep (s.drop (i + 3))
termination_by s.length
decreasing_by
  have := firstOcc_le h
  simp only [List.length_drop]
  omega

/-- The compaction loop of `update`: pop the head while the joined text is
longer than 500 and more than one part remains. -/
def compactLoop : List (List Char) → List (List Char)
  | [] => []
  | [p] => [p]
  | p :: q :: ps =>
      if 500 < (joinSep (p :: q :: ps)).length then compactLoop (q :: ps)
      else p :: q :: ps

/-- The summary produced from `new_summary`: split/pop/join only when the text
exceeds 500 characters. -/
def compactSummary (ns : List Char) : List Char :=
  if 500 < ns.length then joinSep (compactLoop (splitSep ns)) else ns

/-- The `"Prior: {query[:80]} → {key_facts}"` first-turn summary text. -/
def priorText (q kf : List Char) : List Char :=
  "Prior: ".toList ++ q.take 80 ++ " → ".toList ++ kf

/-- The `"Then: {query[:80]} → {key_facts}"` text appended (after `" | "`)
for a follow-up turn. -/
def thenText (q kf : List Char) : List Char :=
  "Then: ".toList ++ q.take 80 ++ " → ".toList ++ kf

/-!
## Conversation store
-/

/-- `SESSION_TIMEOUT_SECONDS = 30 * 60`. -/
def SESSION_TIMEOUT_SECONDS : ℤ := 30 * 60

/-- A per-user conversation session (`ConversationSession`). -/
structure Session where
  summary : List Char := []
  last_query : List Char := []
  last_response_snippet : List Char := []
  turn_count : Nat := 0
  last_activity : ℤ := 0
deriving DecidableEq

/-- The session table, keyed by user id. -/
def Store := String → Option Session

/-- The store with no sessions. -/
def emptyStore : Store := fun _ => none

/-- Remove one user's entry. -/
def eraseUser (st : Store) (u : String) : Store :=
  fun v => if v = u then none else st v

/-- `has_session(user_id)` at time `now`: result plus the store after the
call's lazy eviction. -/
def has_session (st : Store) (now : ℤ) (u : String) : Bool × Store :=
  match st u with
  | none => (false, st)
  | some s =>
      if SESSION_TIMEOUT_SECONDS < now - s.last_activity then
        (false, eraseUser st u)
      else (true, st)

/-- `get_context(user_id)` at time `now`: the summary (or `none` when absent,
expired, or empty) plus the store after the call's lazy eviction. -/
def get_context (st : Store) (now : ℤ) (u : String) :
    Option (List Char) × Store :=
  match st u with
  | none => (none, st)
  | some s =>
      if SESSION_TIMEOUT_SECONDS < now - s.last_activity then
        (none, eraseUser st u)
      else (if s.summary = [] then none else some s.summary, st)

/-- `update(user_id, query, response)` at time `now`: build or extend the
session's summary from the response's key facts, compact it, and refresh
the session fields. -/
def update (st : Store) (now : ℤ) (u : String) (q r : List Char) : Store :=
  let kf := extract_key_facts r
  let old := (st u).getD {}
  let ns :=
    if old.summary = [] then priorText q kf
    else old.summary ++ SEP ++ thenText q kf
  fun v =>
    if v = u then
      some { summary := compactSummary ns
             last_query := q
             last_response_snippet := r.take 300
             turn_count := old.turn_count + 1
             last_activity := now }
    else st v

/-- `reset(user_id)`: unconditionally remove the session. -/
def reset (st : Store) (u : String) : Store := eraseUser st u

/-- One `record_turn` call: time, user, query, response. -/
structure UpdateCall where
  now : ℤ
  user : String
  query : List Char
  response : List Char

/-- Run a sequence of `record_turn` calls from a starting store. -/
def runUpdates (st : Store) : List UpdateCall → Store
  | [] => st
  | c :: cs => runUpdates (update st c.now c.user c.query c.response) cs

/-- A public operation on the store (used to describe reachable states). -/
inductive Op where
  | upd (now : ℤ) (u : String) (q r : List Char)
  | rst (u : String)
  | hs (now : ℤ) (u : String)
  | gc (now : ℤ) (u : String)

/-- The store after one operation (for reads, the post-eviction store). -/
def applyOp (st : Store) : Op → Store
  | Op.upd now u q r => update st now u q r
  | Op.rst u => reset st u
  | Op.hs now u => (has_session st now u).2
  | Op.gc now u => (get_context st now u).2

/-- The store reached from empty by a sequence of public operations. -/
def runOps (ops : List Op) : Store := ops.foldl applyOp emptyStore

/-!
## Positional lemmas about infixes and the separator
-/

theorem sep_len : SEP.length = 3 := rfl

theorem infix_of_take {l p r X Y : List Char} (h : l ++ p ++ r = X ++ Y)
    (hl : l.length + p.length ≤ X.length) : p <:+: X := by
  have h1 : (l ++ p ++ r).take X.length = X := by rw [h]; exact List.take_left X Y
  rw [List.append_assoc, List.take_append_eq_append_take,
    List.take_of_length_le (by omega), List.take_append_eq_append_take,
    List.take_of_length_le (by omega)] at h1
  exact ⟨l, _, by simpa [List.append_assoc] using h1⟩

theorem infix_of_drop {l p r Z : List Char} (h : l ++ p ++ r = Z) {n : Nat}
    (hn : n ≤ l.length) : p <:+: Z.drop n := by
  refine ⟨l.drop n, r, ?_⟩
  have hz : Z.drop n = l.drop n ++ (p ++ r) := by
    rw [← h, List.append_assoc, List.drop_append_eq_append_drop,
      Nat.sub_eq_zero_of_le hn, List.drop_zero]
  rw [hz, List.append_assoc]

theorem drop_mid {l p r Z : List Char} (h : l ++ p ++ r = Z) {d : Nat}
    (hd : d ≤ p.length) : Z.drop (l.length + d) = p.drop d ++ r := by
  rw [← h, List.append_assoc, ← List.drop_drop, List.drop_left,
    List.drop_append_eq_append_drop, Nat.sub_eq_zero_of_le hd, List.drop_zero]

/-- A character list that contains no occurrence of the `" | "` separator. -/
def SepFree (p : List Char) : Prop := ¬ SEP <:+: p

theorem sepFree_padded {W p : List Char} (hp : p <:+: W ++ SEP)
    (hf : SepFree p) : p.length ≤ W.length + 2 := by
  obtain ⟨l, r, h⟩ := hp
  have hlen := congrArg List.length h
  simp [sep_len] at hlen
  rcases Nat.lt_or_ge (l.length + p.length) (W.length + 3) with h1 | h1
  · omega
  · have hr : r = [] := List.length_eq_zero.mp (by omega)
    rcases Nat.lt_or_ge W.length l.length with h2 | h2
    · omega
    · exfalso
      apply hf
      have hd : (W ++ SEP).drop (l.length + (W.length - l.length)) =
          p.drop (W.length - l.length) ++ r := drop_mid h (by omega)
      rw [Nat.add_sub_cancel' h2, List.drop_left, hr, List.append_nil] at hd
      rw [hd]
      exact (List.drop_suffix _ p).isInfix

/-- Every separator-free infix of `y` has length at most 343.  This is the
structural invariant that bounds any single segment that summary compaction
can be left with. -/
def SegBounded (y : List Char) : Prop :=
  ∀ p, p <:+: y → SepFree p → p.length ≤ 343

theorem segBounded_of_len {y : List Char} (h : y.length ≤ 343) :
    SegBounded y := fun _ hp _ => le_trans hp.length_le h

theorem segBounded_mono {x y : List Char} (h : SegBounded y) (hxy : x <:+: y) :
    SegBounded x := fun p hp hf => h p (hp.trans hxy) hf

theorem segBounded_append_turn {A t : List Char} (hA : SegBounded (A ++ SEP))
    (ht : t.length ≤ 339) : SegBounded ((A ++ SEP) ++ (t ++ SEP)) := by
  intro p hp hf
  obtain ⟨l, r, h⟩ := hp
  rcases le_or_lt (l.length + p.length) (A.length + 3) with h1 | h1
  · exact hA p (infix_of_take h (by rw [List.length_append, sep_len]; omega)) hf
  · rcases le_or_lt (A.length + 1) l.length with h2 | h2
    · have hd : p <:+: ((A ++ SEP) ++ (t ++ SEP)).drop (A.length + 1) :=
        infix_of_drop h (by omega)
      have he : ((A ++ SEP) ++ (t ++ SEP)).drop (A.length + 1) =
          ('|' :: ' ' :: t) ++ SEP := by
        rw [List.drop_append_eq_append_drop, List.drop_append_eq_append_drop]
        have e1 : A.drop (A.length + 1) = [] := by
          simp [List.drop_eq_nil_of_le]
        have e2 : A.length + 1 - A.length = 1 := by omega
        have e3 : A.length + 1 - (A ++ SEP).length = 0 := by
          rw [List.length_append, sep_len]; omega
        rw [e1, e2, e3, List.drop_zero]
        simp [SEP]
      rw [he] at hd
      have := sepFree_padded hd hf
      simp at this
      omega
    · exfalso
      apply hf
      have hlen := congrArg List.length h
      simp [sep_len] at hlen
      have hd : ((A ++ SEP) ++ (t ++ SEP)).drop (l.length + (A.length - l.length)) =
          p.drop (A.length - l.length) ++ r := drop_mid h (by omega)
      rw [Nat.add_sub_cancel' (by omega), List.append_assoc, List.drop_left] at hd
      have hpre : SEP <+: p.drop (A.length - l.length) ++ r := by
        rw [← hd]; exact List.prefix_append _ _
      have hsp : SEP <+: p.drop (A.length - l.length) := by
        refine List.prefix_of_prefix_length_le hpre (List.prefix_append _ _) ?_
        rw [sep_len, List.length_drop]
        omega
      exact hsp.isInfix.trans (List.drop_suffix _ p).isInfix

/-!
## Split / join lemmas
-/

theorem splitSep_none {s : List Char} (h : firstOcc s = none) :
    splitSep s = [s] := by
  rw [splitSep.eq_def, h]

theorem splitSep_some {s : List Char} {i : Nat} (h : firstOcc s = some i) :
    splitSep s = s.take i :: splitSep (s.drop (i + 3)) := by
  rw [splitSep.eq_def, h]

theorem splitSep_ne_nil (s : List Char) : splitSep s ≠ [] := by
  cases h : firstOcc s with
  | none => rw [splitSep_none h]; simp
  | some i => rw [splitSep_some h]; simp

theorem joinSep_cons {p : List Char} {ps : List (List Char)} (h : ps ≠ []) :
    joinSep (p :: ps) = p ++ SEP ++ joinSep ps := by
  cases ps with
  | nil => exact absurd rfl h
  | cons q qs => rfl

/-- Decompose `s` at a separator occurrence found by `firstOcc`. -/
theorem split_at_occ {s : List Char} {i : Nat} (h : firstOcc s = some i) :
    s = s.take i ++ SEP ++ s.drop (i + 3) := by
  have h1 : SEP <+: s.drop i := List.isPrefixOf_iff_prefix.mp (firstOcc_some h).1
  obtain ⟨w, hw⟩ := h1
  have hw3 : s.drop (i + 3) = w := by
    have h2 : (s.drop i).drop 3 = w := by rw [← hw]; exact List.drop_left SEP w
    rw [List.drop_drop] at h2
    exact h2
  calc s = s.take i ++ s.drop i := (List.take_append_drop i s).symm
    _ = s.take i ++ (SEP ++ w) := by rw [hw]
    _ = s.take i ++ SEP ++ s.drop (i + 3) := by rw [hw3, List.append_assoc]

theorem join_split (s : List Char) : joinSep (splitSep s) = s := by
  induction s using splitSep.induct with
  | case1 s h => rw [splitSep_none h]; rfl
  | case2 s i h ih =>
    rw [splitSep_some h, joinSep_cons (splitSep_ne_nil _), ih]
    exact (split_at_occ h).symm

/-- A separator occurrence at a known position is seen by `isPrefixOf` after
dropping up to it. -/
theorem occ_at {l r x : List Char} (h : l ++ SEP ++ r = x) :
    SEP.isPrefixOf (x.drop l.length) = true := by
  apply List.isPrefixOf_iff_prefix.mpr
  have hx : x.drop l.length = SEP ++ r := by
    rw [← h, List.append_assoc, List.drop_left]
  exact hx ▸ ⟨r, rfl⟩

theorem sepFree_of_mem_split {s p : List Char} (hp : p ∈ splitSep s) :
    SepFree p := by
  induction s using splitSep.induct with
  | case1 s h =>
    rw [splitSep_none h] at hp
    simp only [List.mem_singleton] at hp
    subst hp
    rintro ⟨l, r, hl⟩
    have ht := occ_at hl
    rw [firstOcc_none h l.length] at ht
    exact Bool.false_ne_true ht
  | case2 s i h ih =>
    rw [splitSep_some h] at hp
    rcases List.mem_cons.mp hp with hp1 | hp2
    · subst hp1
      rintro ⟨l, r, hl⟩
      have hlt : l.length < i := by
        have hlen := congrArg List.length hl
        simp only [List.length_append, sep_len, List.length_take] at hlen
        omega
      obtain ⟨w, hw⟩ : s.take i <+: s := List.take_prefix i s
      have hocc : l ++ SEP ++ (r ++ w) = s := by
        rw [← hw, ← hl, List.append_assoc, List.append_assoc, List.append_assoc]
      have ht := occ_at hocc
      rw [(firstOcc_some h).2 l.length hlt] at ht
      exact Bool.false_ne_true ht
    · exact ih hp2

theorem infix_of_mem_split {s p : List Char} (hp : p ∈ splitSep s) :
    p <:+: s := by
  induction s using splitSep.induct with
  | case1 s h =>
    rw [splitSep_none h] at hp
    simp only [List.mem_singleton] at hp
    exact hp ▸ List.infix_refl p
  | case2 s i h ih =>
    rw [splitSep_some h] at hp
    rcases List.mem_cons.mp hp with hp1 | hp2
    · exact hp1 ▸ (List.take_prefix i s).isInfix
    · exact (ih hp2).trans (List.drop_suffix (i + 3) s).isInfix

theorem join_drop_sfx (s : List Char) (k : Nat) :
    joinSep ((splitSep s).drop k) <:+ s := by
  induction s using splitSep.induct generalizing k with
  | case1 s h =>
    rw [splitSep_none h]
    cases k with
    | zero => exact List.suffix_refl s
    | succ k' => simp [joinSep]
  | case2 s i h ih =>
    cases k with
    | zero =>
      rw [List.drop_zero, join_split]
    | succ k' =>
      rw [splitSep_some h, List.drop_succ_cons]
      exact (ih k').trans (List.drop_suffix (i + 3) s)

theorem compactLoop_spec (parts : List (List Char)) :
    ∃ k, compactLoop parts = parts.drop k ∧
      (k = 0 ∨ (500 < (joinSep (parts.drop (k - 1))).length ∧
        2 ≤ (parts.drop (k - 1)).length)) := by
  induction parts with
  | nil => exact ⟨0, rfl, Or.inl rfl⟩
  | cons p ps ih =>
    cases ps with
    | nil => exact ⟨0, rfl, Or.inl rfl⟩
    | cons q qs =>
      by_cases hc : 500 < (joinSep (p :: q :: qs)).length
      · obtain ⟨k, hk, hcond⟩ := ih
        refine ⟨k + 1, ?_, Or.inr ?_⟩
        · rw [compactLoop, if_pos hc, hk, List.drop_succ_cons]
        · rcases Nat.eq_zero_or_pos k with hz | hpos
          · subst hz
            simpa using hc
          · obtain ⟨k', rfl⟩ := Nat.exists_eq_add_of_le hpos
            have he : (p :: q :: qs).drop (1 + k' + 1 - 1) =
                (q :: qs).drop (1 + k' - 1) := by
              have e1 : 1 + k' + 1 - 1 = k' + 1 := by omega
              have e2 : 1 + k' - 1 = k' := by omega
              rw [e1, e2, List.drop_succ_cons]
            rcases hcond with h0 | hcond'
            · omega
            · rw [he]
              exact hcond'
      · exact ⟨0, by rw [compactLoop, if_neg hc, List.drop_zero], Or.inl rfl⟩

theorem compactLoop_exit (parts : List (List Char)) :
    (joinSep (compactLoop parts)).length ≤ 500 ∨
      ∃ p, compactLoop parts = [p] := by
  induction parts with
  | nil => left; simp [compactLoop, joinSep]
  | cons p ps ih =>
    cases ps with
    | nil => exact Or.inr ⟨p, rfl⟩
    | cons q qs =>
      by_cases hc : 500 < (joinSep (p :: q :: qs)).length
      · rw [compactLoop, if_pos hc]
        exact ih
      · left
        rw [compactLoop, if_neg hc]
        omega

theorem compactSummary_sfx (ns : List Char) : compactSummary ns <:+ ns := by
  rw [compactSummary]
  split
  · obtain ⟨k, hk, -⟩ := compactLoop_spec (splitSep ns)
    rw [hk]
    exact join_drop_sfx ns k
  · exact List.suffix_refl ns

theorem compactSummary_len {ns : List Char} (hB : SegBounded (ns ++ SEP)) :
    (compactSummary ns).length ≤ 500 := by
  rw [compactSummary]
  split
  · rcases compactLoop_exit (splitSep ns) with h1 | ⟨p, hp⟩
    · exact h1
    · rw [hp]
      have hmem : p ∈ splitSep ns := by
        obtain ⟨k, hk, -⟩ := compactLoop_spec (splitSep ns)
        have hm : p ∈ compactLoop (splitSep ns) := by rw [hp]; exact List.mem_singleton_self p
        rw [hk] at hm
        exact (List.drop_sublist k (splitSep ns)).mem hm
      have h343 : p.length ≤ 343 := by
        refine hB p ?_ (sepFree_of_mem_split hmem)
        exact (infix_of_mem_split hmem).trans ⟨[], SEP, by simp⟩
      show (joinSep [p]).length ≤ 500
      calc (joinSep [p]).length = p.length := rfl
        _ ≤ 500 := by omega
  · omega

theorem compactSummary_segBounded {ns : List Char}
    (hB : SegBounded (ns ++ SEP)) :
    SegBounded (compactSummary ns ++ SEP) := by
  apply segBounded_mono hB
  obtain ⟨w, hw⟩ := compactSummary_sfx ns
  exact ⟨w, [], by rw [← List.append_assoc, hw, List.append_nil]⟩

theorem extract_le_250 (r : List Char) :
    (extract_key_facts r).length ≤ 250 := by
  rw [extract_key_facts]
  exact List.length_take_le _ _

theorem thenText_len {q kf : List Char} (h : kf.length ≤ 250) :
    (thenText q kf).length ≤ 339 := by
  have ht := List.length_take_le 80 q
  simp only [thenText, List.length_append]
  norm_num
  omega

theorem priorText_len {q kf : List Char} (h : kf.length ≤ 250) :
    (priorText q kf).length ≤ 340 := by
  have ht := List.length_take_le 80 q
  simp only [priorText, List.length_append]
  norm_num
  omega

/-- The new-summary text built by `update` is segment-bounded (padded form),
whichever branch built it. -/
theorem newSummary_segBounded {old q kf : List Char} (hkf : kf.length ≤ 250)
    (hold : SegBounded (old ++ SEP)) :
    SegBounded ((if old = [] then priorText q kf
      else old ++ SEP ++ thenText q kf) ++ SEP) := by
  split
  · apply segBounded_of_len
    have := priorText_len (q := q) hkf
    simp only [List.length_append, sep_len]
    omega
  · have hc := segBounded_append_turn hold (thenText_len (q := q) hkf)
    simpa [List.append_assoc] using hc

theorem sep_chars : SEP = [' ', '|', ' '] := rfl

theorem sfx_of_sfx_le {t f z : List Char} (ht : t <:+ z) (hf : f <:+ z)
    (hle : t.length ≤ f.length) : t <:+ f := by
  obtain ⟨a, ha⟩ := ht
  obtain ⟨b, hb⟩ := hf
  have hab : b ++ f = a ++ t := by rw [ha, hb]
  have hblen : b.length ≤ a.length := by
    have := congrArg List.length hab
    simp only [List.length_append] at this
    omega
  refine ⟨a.drop b.length, ?_⟩
  have h1 : f = (b ++ f).drop b.length := (List.drop_left b f).symm
  rw [h1, hab, List.drop_append_eq_append_drop, Nat.sub_eq_zero_of_le hblen,
    List.drop_zero]

/-- Core of the recency property: the turn text appended after a separator is
always a suffix of the compacted summary, because the pop loop never reaches
into the final turn while an older segment remains. -/
theorem thenTail_sfx_compact {old t : List Char} (hlen : t.length ≤ 339)
    (hhead : ∃ u, t = 'T' :: u) :
    t <:+ compactSummary (old ++ SEP ++ t) := by
  have htns : t <:+ old ++ SEP ++ t := ⟨old ++ SEP, rfl⟩
  rw [compactSummary]
  split
  case isFalse => exact htns
  case isTrue hgt =>
  obtain ⟨k, hk, hcond⟩ := compactLoop_spec (splitSep (old ++ SEP ++ t))
  rw [hk]
  cases k with
  | zero => rw [List.drop_zero, join_split]; exact htns
  | succ k' =>
    have hcond' : 500 < (joinSep ((splitSep (old ++ SEP ++ t)).drop k')).length ∧
        2 ≤ ((splitSep (old ++ SEP ++ t)).drop k').length := by
      rcases hcond with h0 | hc2
      · exact absurd h0 (Nat.succ_ne_zero k')
      · simpa using hc2
    obtain ⟨p, rest, hdrop⟩ :
        ∃ p rest, (splitSep (old ++ SEP ++ t)).drop k' = p :: rest := by
      cases hd : (splitSep (old ++ SEP ++ t)).drop k' with
      | nil => rw [hd] at hcond'; simp at hcond'
      | cons p rest => exact ⟨p, rest, rfl⟩
    have hrest_ne : rest ≠ [] := by
      intro hr
      rw [hdrop, hr] at hcond'
      simp at hcond'
    have hdk : (splitSep (old ++ SEP ++ t)).drop (k' + 1) = rest := by
      have hdd := (List.drop_drop 1 k' (splitSep (old ++ SEP ++ t))).symm
      rw [hdd, hdrop]
      rfl
    rw [hdk]
    have hJF : joinSep ((splitSep (old ++ SEP ++ t)).drop k') =
        p ++ SEP ++ joinSep rest := by rw [hdrop, joinSep_cons hrest_ne]
    have hF_sfx : joinSep rest <:+ old ++ SEP ++ t := by
      rw [← hdk]; exact join_drop_sfx _ (k' + 1)
    rcases le_or_lt t.length (joinSep rest).length with hle | hlt
    · exact sfx_of_sfx_le htns hF_sfx hle
    · exfalso
      obtain ⟨c, hc⟩ := join_drop_sfx (old ++ SEP ++ t) k'
      rw [hJF] at hc
      have hJlen : 500 < (p ++ SEP ++ joinSep rest).length := by
        rw [← hJF]; exact hcond'.1
      have hlens := congrArg List.length hc
      simp only [List.length_append, sep_len] at hlens hJlen
      have hcle : c.length ≤ old.length := by omega
      have hw : p ++ SEP ++ joinSep rest = old.drop c.length ++ (SEP ++ t) := by
        have h1 : (c ++ (p ++ SEP ++ joinSep rest)).drop c.length =
            p ++ SEP ++ joinSep rest := List.drop_left _ _
        rw [hc] at h1
        rw [← h1, List.append_assoc, List.drop_append_eq_append_drop,
          Nat.sub_eq_zero_of_le hcle, List.drop_zero]
      have hpmem : p ∈ splitSep (old ++ SEP ++ t) := by
        have hm : p ∈ (splitSep (old ++ SEP ++ t)).drop k' := by
          rw [hdrop]; exact List.mem_cons_self p rest
        exact (List.drop_sublist _ _).mem hm
      have hl2 := congrArg List.length hw
      simp only [List.length_append, List.length_drop, sep_len] at hl2
      rcases le_or_lt ((old.drop c.length).length + 3) p.length with hbig | hsmall
      · apply sepFree_of_mem_split hpmem
        have hd1 : (p ++ SEP ++ joinSep rest).drop (old.drop c.length).length =
            p.drop (old.drop c.length).length ++ (SEP ++ joinSep rest) := by
          rw [List.append_assoc, List.drop_append_eq_append_drop,
            Nat.sub_eq_zero_of_le (by simp only [List.length_drop]; omega),
            List.drop_zero]
        have hd2 : (old.drop c.length ++ (SEP ++ t)).drop
            (old.drop c.length).length = SEP ++ t := List.drop_left _ _
        have heq2 : p.drop (old.drop c.length).length ++ (SEP ++ joinSep rest) =
            SEP ++ t := by rw [← hd1, hw, hd2]
        have hsp : SEP <+: p.drop (old.drop c.length).length := by
          have hpp : p.drop (old.drop c.length).length <+: SEP ++ t := by
            rw [← heq2]; exact List.prefix_append _ _
          refine List.prefix_of_prefix_length_le (List.prefix_append SEP t) hpp ?_
          simp only [sep_len, List.length_drop] at hbig ⊢
          omega
        exact hsp.isInfix.trans (List.drop_suffix _ p).isInfix
      · have hge : (old.drop c.length).length + 1 ≤ p.length := by
          simp only [List.length_drop] at *
          omega
        have hd1 : (p ++ SEP ++ joinSep rest).drop p.length =
            SEP ++ joinSep rest := by
          rw [List.append_assoc]; exact List.drop_left _ _
        have hd2 : (old.drop c.length ++ (SEP ++ t)).drop p.length =
            (SEP ++ t).drop (p.length - (old.drop c.length).length) := by
          rw [List.drop_append_eq_append_drop,
            List.drop_eq_nil_of_le (by omega), List.nil_append]
        have heq2 : SEP ++ joinSep rest =
            (SEP ++ t).drop (p.length - (old.drop c.length).length) := by
          rw [← hd1, hw, hd2]
        have hcases : p.length - (old.drop c.length).length = 1 ∨
            p.length - (old.drop c.length).length = 2 := by
          simp only [List.length_drop] at *
          omega
        obtain ⟨u, hu⟩ := hhead
        rcases hcases with h1 | h2
        · rw [h1, sep_chars] at heq2
          simp at heq2
        · rw [h2, sep_chars, hu] at heq2
          simp at heq2

/-!
## Store invariants
-/

theorem compactSummary_eq_joinDrop (ns : List Char) :
    ∃ k, compactSummary ns = joinSep ((splitSep ns).drop k) := by
  rw [compactSummary]
  split
  · obtain ⟨k, hk, -⟩ := compactLoop_spec (splitSep ns)
    exact ⟨k, by rw [hk]⟩
  · exact ⟨0, by rw [List.drop_zero, join_split]⟩

/-- Every stored summary is segment-bounded (in padded form) and at most 500
characters long. -/
def GoodStore (st : Store) : Prop :=
  ∀ u s, st u = some s → SegBounded (s.summary ++ SEP) ∧ s.summary.length ≤ 500

theorem goodStore_empty : GoodStore emptyStore := by
  intro u s h
  simp [emptyStore] at h

theorem goodStore_update {st : Store} (h : GoodStore st) (now : ℤ) (u : String)
    (q r : List Char) : GoodStore (update st now u q r) := by
  intro v s hv
  simp only [update] at hv
  by_cases hvu : v = u
  · rw [if_pos hvu] at hv
    have hold : SegBounded (((st u).getD {}).summary ++ SEP) := by
      cases hst : st u with
      | none => simp [hst]; exact segBounded_of_len (by simp [sep_len])
      | some s₀ =>
        simp only [hst, Option.getD_some]
        exact (h u s₀ hst).1
    have hns := newSummary_segBounded (q := q) (extract_le_250 r) hold
    cases hv
    exact ⟨compactSummary_segBounded hns, compactSummary_len hns⟩
  · rw [if_neg hvu] at hv
    exact h v s hv

theorem goodStore_runUpdates (st : Store) (h : GoodStore st)
    (calls : List UpdateCall) : GoodStore (runUpdates st calls) := by
  induction calls generalizing st with
  | nil => exact h
  | cons c cs ih => exact ih _ (goodStore_update h c.now c.user c.query c.response)

theorem erase_some {st : Store} {u v : String} {s : Session}
    (h : eraseUser st u v = some s) : st v = some s := by
  by_cases hv : v = u
  · simp [eraseUser, hv] at h
  · simpa [eraseUser, hv] using h

theorem hs_snd_some {st : Store} {now : ℤ} {u v : String} {s : Session}
    (h : (has_session st now u).2 v = some s) : st v = some s := by
  rw [has_session] at h
  split at h
  · exact h
  · split at h
    · exact erase_some h
    · exact h

theorem gc_snd_some {st : Store} {now : ℤ} {u v : String} {s : Session}
    (h : (get_context st now u).2 v = some s) : st v = some s := by
  rw [get_context] at h
  split at h
  · exact h
  · split at h
    · exact erase_some h
    · exact h

/-- Every stored summary is non-empty. -/
def NonEmptyStore (st : Store) : Prop :=
  ∀ u s, st u = some s → s.summary ≠ []

theorem thenText_head (q kf : List Char) : ∃ w, thenText q kf = 'T' :: w :=
  ⟨_, rfl⟩

theorem compactSummary_prior {q kf : List Char} (hkf : kf.length ≤ 250) :
    compactSummary (priorText q kf) = priorText q kf := by
  rw [compactSummary, if_neg]
  have := priorText_len (q := q) hkf
  omega

theorem update_summary_ne_nil {old q r : List Char} :
    compactSummary (if old = [] then priorText q (extract_key_facts r)
      else old ++ SEP ++ thenText q (extract_key_facts r)) ≠ [] := by
  split
  · rw [compactSummary_prior (extract_le_250 r)]
    intro h
    exact absurd (congrArg List.length h) (by simp [priorText])
  · intro h
    have hs := @thenTail_sfx_compact old
      (thenText q (extract_key_facts r))
      (thenText_len (extract_le_250 r)) (thenText_head q _)
    rw [h] at hs
    obtain ⟨w, hw⟩ := thenText_head q (extract_key_facts r)
    rw [List.suffix_nil.mp hs] at hw
    exact List.noConfusion hw

theorem nonEmpty_applyOp {st : Store} (h : NonEmptyStore st) (op : Op) :
    NonEmptyStore (applyOp st op) := by
  intro v s hv
  cases op with
  | upd now u q r =>
    simp only [applyOp, update] at hv
    by_cases hvu : v = u
    · rw [if_pos hvu] at hv
      cases hv
      exact update_summary_ne_nil
    · rw [if_neg hvu] at hv
      exact h v s hv
  | rst u => exact h v s (erase_some hv)
  | hs now u => exact h v s (hs_snd_some hv)
  | gc now u => exact h v s (gc_snd_some hv)

theorem nonEmpty_runOps (ops : List Op) : NonEmptyStore (runOps ops) := by
  have hgen : ∀ st, NonEmptyStore st → NonEmptyStore (ops.foldl applyOp st) := by
    induction ops with
    | nil => exact fun st h => h
    | cons op ops ih => exact fun st h => ih _ (nonEmpty_applyOp h op)
  exact hgen emptyStore (by intro u s h; simp [emptyStore] at h)

/-!
## Claim theorems: store behaviour
-/

/-- C2: for every user and every sequence of `record_turn` (`update`) calls,
the stored summary returned by `get_context` has length at most 500
characters after every call — the bound is an invariant preserved by the
sole mutating operation. -/
theorem C2_summary_bound_invariant (calls : List UpdateCall) (now : ℤ)
    (u : String) (ctx : List Char)
    (h : (get_context (runUpdates emptyStore calls) now u).1 = some ctx) :
    ctx.length ≤ 500 := by
  have hg := goodStore_runUpdates emptyStore goodStore_empty calls
  rw [get_context] at h
  split at h
  · simp at h
  · next s hst =>
    split at h
    · simp at h
    · split at h
      · simp at h
      · simp only [Option.some.injEq] at h
        rw [← h]
        exact (hg u s hst).2

/-- C3: summary compaction during `record_turn` (`update`) only drops a
prefix of the pipe-separated segment list (the earliest-appended segments
first), and the newest turn's text — `"Then: {query[:80]} → {key_facts}"` —
is always a suffix of the stored summary, for every prior summary state and
every query/response pair. -/
theorem C3_compaction_recency (st : Store) (now : ℤ) (u : String)
    (q r : List Char) (s : Session) (hs : st u = some s)
    (hne : s.summary ≠ []) :
    ∃ s', update st now u q r u = some s' ∧
      thenText q (extract_key_facts r) <:+ s'.summary ∧
      ∃ k, s'.summary = joinSep ((splitSep (s.summary ++ SEP ++
        thenText q (extract_key_facts r))).drop k) := by
  have hupd : update st now u q r u = some
      { summary := compactSummary (s.summary ++ SEP ++
          thenText q (extract_key_facts r))
        last_query := q
        last_response_snippet := r.take 300
        turn_count := s.turn_count + 1
        last_activity := now } := by
    simp only [update, hs, Option.getD_some, if_pos rfl, if_neg hne]
  refine ⟨_, hupd, ?_, ?_⟩
  · exact thenTail_sfx_compact (thenText_len (extract_le_250 r))
      (thenText_head _ _)
  · exact compactSummary_eq_joinDrop _

/-- C4: `has_session` is true exactly when a session exists whose
`last_activity` is within 30 minutes of `now` (the boundary itself counts as
present), and an expired session is physically deleted by either read
operation, after which `get_context` returns `none`. -/
theorem C4_timeout_boundary_lazy_eviction (st : Store) (now : ℤ)
    (u : String) :
    ((has_session st now u).1 = true ↔
      ∃ s, st u = some s ∧ now - s.last_activity ≤ SESSION_TIMEOUT_SECONDS) ∧
    ∀ s, st u = some s → SESSION_TIMEOUT_SECONDS < now - s.last_activity →
      (has_session st now u).2 u = none ∧ (get_context st now u).2 u = none ∧
      (get_context ((has_session st now u).2) now u).1 = none ∧
      (get_context st now u).1 = none := by
  constructor
  · constructor
    · intro h
      rw [has_session] at h
      split at h
      · simp at h
      · next s hst =>
        split at h
        · simp at h
        · next hexp => exact ⟨s, hst, by omega⟩
    · rintro ⟨s, hst, hle⟩
      simp only [has_session, hst]
      rw [if_neg (not_lt.mpr hle)]
  · intro s hst hexp
    have h2 : (has_session st now u).2 = eraseUser st u := by
      simp only [has_session, hst, if_pos hexp]
    have h3 : (get_context st now u).2 = eraseUser st u := by
      simp only [get_context, hst, if_pos hexp]
    refine ⟨?_, ?_, ?_, ?_⟩
    · rw [h2]; simp [eraseUser]
    · rw [h3]; simp [eraseUser]
    · rw [h2]
      have he : eraseUser st u u = none := by simp [eraseUser]
      simp [get_context, he]
    · simp only [get_context, hst, if_pos hexp]

/-- C9: `reset` is idempotent and total — a second `reset` is a no-op,
`has_session` is false afterwards, all three operations are no-ops returning
false/none for an unknown user, and none of them touches any other user's
entry. -/
theorem C9_reset_idempotent_total (st : Store) (now : ℤ) (u : String) :
    reset (reset st u) u = reset st u ∧
    (has_session (reset st u) now u).1 = false ∧
    (st u = none → reset st u = st ∧ (get_context st now u).1 = none ∧
      (get_context st now u).2 = st ∧ (has_session st now u).1 = false ∧
      (has_session st now u).2 = st) ∧
    (∀ v, v ≠ u → reset st u v = st v ∧ (has_session st now u).2 v = st v ∧
      (get_context st now u).2 v = st v) := by
  refine ⟨?_, ?_, ?_, ?_⟩
  · funext v
    by_cases hv : v = u <;> simp [reset, eraseUser, hv]
  · have h0 : reset st u u = none := by simp [reset, eraseUser]
    simp [has_session, h0]
  · intro hnone
    refine ⟨?_, ?_, ?_, ?_, ?_⟩
    · funext v
      by_cases hv : v = u
      · subst hv; simp [reset, eraseUser, hnone]
      · simp [reset, eraseUser, hv]
    · simp [get_context, hnone]
    · simp [get_context, hnone]
    · simp [has_session, hnone]
    · simp [has_session, hnone]
  · intro v hv
    refine ⟨by simp [reset, eraseUser, hv], ?_, ?_⟩
    · rw [has_session]
      split
      · rfl
      · split
        · simp [eraseUser, hv]
        · rfl
    · rw [get_context]
      split
      · rfl
      · split
        · simp [eraseUser, hv]
        · rfl

/-- C10: for stores reachable through the public operations, every stored
summary is non-empty (a first turn starts with `"Prior: "`), so the
empty-summary branch of `get_context` never fires and `get_context` returns
a string exactly when `has_session` is true at the same instant. -/
theorem C10_context_iff_session (ops : List Op) (now : ℤ) (u : String) :
    ((get_context (runOps ops) now u).1.isSome =
      (has_session (runOps ops) now u).1) ∧
    (runOps ops u = none → ∀ now2 q r, ∃ s',
      update (runOps ops) now2 u q r u = some s' ∧
      "Prior: ".toList <+: s'.summary ∧ s'.summary ≠ []) := by
  constructor
  · have hne := nonEmpty_runOps ops
    rcases hst : runOps ops u with - | s
    · simp [get_context, has_session, hst]
    · have hsne := hne u s hst
      by_cases hexp : SESSION_TIMEOUT_SECONDS < now - s.last_activity
      · simp [get_context, has_session, hst, hexp]
      · simp [get_context, has_session, hst, hexp, hsne]
  · intro hnone now2 q r
    have hupd : update (runOps ops) now2 u q r u = some
        { summary := compactSummary (priorText q (extract_key_facts r))
          last_query := q
          last_response_snippet := r.take 300
          turn_count := 1
          last_activity := now2 } := by
      simp [update, hnone]
    refine ⟨_, hupd, ?_, ?_⟩
    · rw [compactSummary_prior (extract_le_250 r), priorText]
      exact List.prefix_append _ _
    · rw [compactSummary_prior (extract_le_250 r), priorText]
      intro hcon
      exact absurd (congrArg List.length hcon) (by simp)

/-!
## Normalisation bridges: the detectors are stable under `strip`/`lower`

`is_followup` applies the detectors to `message.lower().strip()`, while each
detector already lower-cases its own argument; the following lemmas let the
fresh-request hypothesis be stated on the raw message.
-/

theorem lowChar_toNat_of_upper {c : Char} (h : 'A' ≤ c ∧ c ≤ 'Z') :
    (lowChar c).toNat = c.toNat + 32 := by
  rw [lowChar, if_pos h]
  have hv : c.toNat ≤ 90 := h.2
  have hvalid : (c.toNat + 32).isValidChar := by
    left
    have h65 : 65 ≤ c.toNat := h.1
    omega
  simp [Char.ofNat, hvalid]
  rfl

theorem lowChar_eq_self {c : Char} (h : ¬('A' ≤ c ∧ c ≤ 'Z')) :
    lowChar c = c := by
  rw [lowChar, if_neg h]

theorem char_le_iff_toNat {a b : Char} : a ≤ b ↔ a.toNat ≤ b.toNat :=
  Iff.rfl

theorem lowChar_idem (c : Char) : lowChar (lowChar c) = lowChar c := by
  by_cases h : 'A' ≤ c ∧ c ≤ 'Z'
  · have ht := lowChar_toNat_of_upper h
    have h65 : 65 ≤ c.toNat := h.1
    have h90 : c.toNat ≤ 90 := h.2
    apply lowChar_eq_self
    intro ⟨ha, hb⟩
    have hb' : (lowChar c).toNat ≤ 90 := char_le_iff_toNat.mp hb
    omega
  · rw [lowChar_eq_self h, lowChar_eq_self h]

theorem pyIsSpace_lowChar (c : Char) : pyIsSpace (lowChar c) = pyIsSpace c := by
  by_cases h : 'A' ≤ c ∧ c ≤ 'Z'
  · have ht := lowChar_toNat_of_upper h
    have h65 : 65 ≤ c.toNat := h.1
    have h90 : c.toNat ≤ 90 := h.2
    have hs1 : pyIsSpace (lowChar c) = false := by
      simp only [pyIsSpace, ht, Bool.or_eq_false_iff, decide_eq_false_iff_not]
      omega
    have hs2 : pyIsSpace c = false := by
      simp only [pyIsSpace, Bool.or_eq_false_iff, decide_eq_false_iff_not]
      omega
    rw [hs1, hs2]
  · rw [lowChar_eq_self h]

theorem pyLower_idem (s : List Char) : pyLower (pyLower s) = pyLower s := by
  simp only [pyLower, List.map_map]
  exact List.map_congr_left fun c _ => lowChar_idem c

theorem pyLower_pyStrip (s : List Char) :
    pyLower (pyStrip s) = pyStrip (pyLower s) := by
  have hdw : ∀ t : List Char,
      (t.dropWhile pyIsSpace).map lowChar = (t.map lowChar).dropWhile pyIsSpace := by
    intro t
    induction t with
    | nil => rfl
    | cons c cs ih =>
      by_cases hc : pyIsSpace c = true
      · rw [List.dropWhile_cons_of_pos hc, List.map_cons,
          List.dropWhile_cons_of_pos (by rw [pyIsSpace_lowChar]; exact hc), ih]
      · rw [List.dropWhile_cons_of_neg (by simpa using hc), List.map_cons,
          List.dropWhile_cons_of_neg (by rw [pyIsSpace_lowChar]; simpa using hc)]
  simp only [pyStrip, pyLower]
  rw [List.map_reverse, hdw, List.map_reverse, hdw]

theorem infix_dropWhile {p y : List Char} (hp : p <:+: y)
    (hh : ∀ c, p.head? = some c → pyIsSpace c = false) :
    p <:+: y.dropWhile pyIsSpace := by
  obtain ⟨l, r, h⟩ := hp
  induction l generalizing y with
  | nil =>
    cases p with
    | nil => exact List.nil_infix
    | cons c cs =>
      simp only [List.nil_append] at h
      rw [← h, List.cons_append, List.dropWhile_cons_of_neg
        (by simp [hh c rfl])]
      exact ⟨[], r, rfl⟩
  | cons a l' ih =>
    rw [← h]
    by_cases ha : pyIsSpace a = true
    · rw [List.cons_append, List.cons_append,
        List.dropWhile_cons_of_pos ha]
      exact ih rfl
    · rw [List.cons_append, List.cons_append,
        List.dropWhile_cons_of_neg (by simpa using ha)]
      exact ⟨a :: l', r, by simp⟩

theorem infix_pyStrip {p y : List Char} (hp : p <:+: y)
    (hh : ∀ c, p.head? = some c → pyIsSpace c = false)
    (hl : ∀ c, p.getLast? = some c → pyIsSpace c = false) :
    p <:+: pyStrip y := by
  rw [pyStrip]
  have h1 : p <:+: y.dropWhile pyIsSpace := infix_dropWhile hp hh
  have h2 : p.reverse <:+: (y.dropWhile pyIsSpace).reverse :=
    List.reverse_infix.mpr h1
  have h3 : p.reverse <:+:
      ((y.dropWhile pyIsSpace).reverse).dropWhile pyIsSpace :=
    infix_dropWhile h2 (by
      intro c hc
      rw [List.head?_reverse] at hc
      exact hl c hc)
  rw [← List.reverse_reverse p]
  exact List.reverse_infix.mpr h3

theorem listContains_iff {p s : List Char} :
    listContains p s = true ↔ p <:+: s := by
  constructor
  · intro h
    rw [listContains, List.any_eq_true] at h
    obtain ⟨i, -, hpre⟩ := h
    obtain ⟨r, hr⟩ := List.isPrefixOf_iff_prefix.mp hpre
    exact ⟨s.take i, r, by rw [List.append_assoc, hr, List.take_append_drop]⟩
  · rintro ⟨l, r, h⟩
    rw [listContains, List.any_eq_true]
    refine ⟨l.length, ?_, ?_⟩
    · rw [List.mem_range]
      have := congrArg List.length h
      simp only [List.length_append] at this
      omega
    · apply List.isPrefixOf_iff_prefix.mpr
      refine ⟨r, ?_⟩
      rw [← h, List.append_assoc, List.drop_left]

/-- Decidable form of "this optional character is not Python whitespace". -/
def nsOk (o : Option Char) : Bool :=
  match o with
  | none => true
  | some c => !pyIsSpace c

theorem nsOk_spec {o : Option Char} (h : nsOk o = true) :
    ∀ c, o = some c → pyIsSpace c = false := by
  intro c hc
  subst hc
  simpa [nsOk] using h

theorem isDigit_not_space {c : Char} (h : c.isDigit = true) :
    pyIsSpace c = false := by
  simp [Char.isDigit] at h
  have h1 : 48 ≤ c.toNat := h.1
  have h2 : c.toNat ≤ 57 := h.2
  simp only [pyIsSpace, Bool.or_eq_false_iff, decide_eq_false_iff_not]
  omega

theorem boundedSearch_iff {alts : List (List Char)} {s : List Char} :
    boundedSearch alts s = true ↔
      ∃ l w r, s = l ++ w ++ r ∧ w ∈ alts ∧ edgeOk l.getLast? = true ∧
        edgeOk r.head? = true := by
  constructor
  · intro h
    rw [boundedSearch, List.any_eq_true] at h
    obtain ⟨i, hi, h2⟩ := h
    rw [List.any_eq_true] at h2
    obtain ⟨w, hw, h3⟩ := h2
    simp only [Bool.and_eq_true] at h3
    obtain ⟨⟨hpre, hel⟩, her⟩ := h3
    obtain ⟨r, hr⟩ := List.isPrefixOf_iff_prefix.mp hpre
    refine ⟨s.take i, w, r, ?_, hw, hel, ?_⟩
    · rw [List.append_assoc, hr, List.take_append_drop]
    · have hdd : s.drop (i + w.length) = r := by
        rw [← List.drop_drop, ← hr, List.drop_left]
      rwa [hdd] at her
  · rintro ⟨l, w, r, rfl, hw, hel, her⟩
    rw [boundedSearch, List.any_eq_true]
    refine ⟨l.length, ?_, ?_⟩
    · rw [List.mem_range]
      simp only [List.length_append]
      omega
    · rw [List.any_eq_true]
      refine ⟨w, hw, ?_⟩
      simp only [Bool.and_eq_true]
      have hd1 : (l ++ w ++ r).drop l.length = w ++ r := by
        rw [List.append_assoc, List.drop_left]
      have ht1 : (l ++ w ++ r).take l.length = l := by
        rw [List.append_assoc, List.take_left]
      refine ⟨⟨?_, ?_⟩, ?_⟩
      · exact List.isPrefixOf_iff_prefix.mpr ⟨r, by rw [hd1]⟩
      · rwa [ht1]
      · have hd2 : (l ++ w ++ r).drop (l.length + w.length) = r := by
          rw [← List.drop_drop, hd1, List.drop_left]
        rwa [hd2]

theorem decomp_dropWhile {w r : List Char} (l : List Char)
    (hwh : ∀ c, w.head? = some c → pyIsSpace c = false) (hwne : w ≠ [])
    (hel : edgeOk l.getLast? = true) :
    ∃ l', (l ++ w ++ r).dropWhile pyIsSpace = l' ++ w ++ r ∧
      edgeOk l'.getLast? = true := by
  induction l with
  | nil =>
    obtain ⟨c, cs, rfl⟩ := List.exists_cons_of_ne_nil hwne
    refine ⟨[], ?_, rfl⟩
    simp only [List.nil_append, List.cons_append]
    rw [List.dropWhile_cons_of_neg (by simp [hwh c rfl])]
  | cons a l' ih =>
    by_cases ha : pyIsSpace a = true
    · rw [List.cons_append, List.cons_append, List.dropWhile_cons_of_pos ha]
      apply ih
      cases l' with
      | nil => rfl
      | cons b bs => rw [List.getLast?_cons_cons] at hel; exact hel
    · rw [List.cons_append, List.cons_append,
        List.dropWhile_cons_of_neg (by simpa using ha)]
      exact ⟨a :: l', rfl, hel⟩

theorem decomp_pyStrip {l w r y : List Char} (hy : y = l ++ w ++ r)
    (hwh : ∀ c, w.head? = some c → pyIsSpace c = false)
    (hwl : ∀ c, w.getLast? = some c → pyIsSpace c = false) (hwne : w ≠ [])
    (hel : edgeOk l.getLast? = true) (her : edgeOk r.head? = true) :
    ∃ l' r', pyStrip y = l' ++ w ++ r' ∧ edgeOk l'.getLast? = true ∧
      edgeOk r'.head? = true := by
  subst hy
  obtain ⟨l1, h1, he1⟩ := decomp_dropWhile l hwh hwne hel
  have h1r : ((l ++ w ++ r).dropWhile pyIsSpace).reverse =
      r.reverse ++ w.reverse ++ l1.reverse := by
    rw [h1]
    simp [List.reverse_append, List.append_assoc]
  obtain ⟨r1, h2, he2⟩ := decomp_dropWhile (w := w.reverse) (r := l1.reverse)
    r.reverse
    (by intro c hc; rw [List.head?_reverse] at hc; exact hwl c hc)
    (by simpa using hwne)
    (by rw [List.getLast?_reverse]; exact her)
  refine ⟨l1, r1.reverse, ?_, he1, ?_⟩
  · rw [pyStrip, h1r, h2]
    simp [List.reverse_append, List.append_assoc]
  · rw [List.head?_reverse]
    exact he2

theorem boundedSearch_pyStrip {alts : List (List Char)} {y : List Char}
    (halts : ∀ w ∈ alts, w ≠ [] ∧ nsOk w.head? = true ∧ nsOk w.getLast? = true)
    (h : boundedSearch alts y = true) :
    boundedSearch alts (pyStrip y) = true := by
  obtain ⟨l, w, r, hy, hw, hel, her⟩ := boundedSearch_iff.mp h
  obtain ⟨hne, hh, hl2⟩ := halts w hw
  obtain ⟨l', r', hs, he1, he2⟩ :=
    decomp_pyStrip hy (nsOk_spec hh) (nsOk_spec hl2) hne hel her
  exact boundedSearch_iff.mpr ⟨l', w, r', hs, hw, he1, he2⟩

theorem takeWhile_all {p : Char → Bool} {ds : List Char} (rest : List Char)
    (h : ∀ c ∈ ds, p c = true) :
    (ds ++ rest).takeWhile p = ds ++ rest.takeWhile p ∧
      (ds ++ rest).dropWhile p = rest.dropWhile p := by
  induction ds with
  | nil => simp
  | cons a tl ih =>
    have ha := h a (List.mem_cons_self a tl)
    have ih' := ih fun c hc => h c (List.mem_cons_of_mem a hc)
    constructor
    · rw [List.cons_append, List.takeWhile_cons_of_pos ha, ih'.1,
        List.cons_append]
    · rw [List.cons_append, List.dropWhile_cons_of_pos ha, ih'.2]

theorem d3k_iff {m : List Char} :
    ((List.range (m.length + 1)).any fun i => matchD3KAt (m.drop i)) = true ↔
      ∃ l ds r, m = l ++ ds ++ 'k' :: r ∧ 3 ≤ ds.length ∧
        ∀ c ∈ ds, c.isDigit = true := by
  constructor
  · intro h
    rw [List.any_eq_true] at h
    obtain ⟨i, -, hm⟩ := h
    simp only [matchD3KAt, List.span_eq_take_drop, Bool.and_eq_true,
      decide_eq_true_eq] at hm
    obtain ⟨h3, hk⟩ := hm
    cases hdw : (m.drop i).dropWhile Char.isDigit with
    | nil => rw [hdw] at hk; simp at hk
    | cons k0 tail =>
      rw [hdw] at hk
      simp only [List.head?_cons, Option.some.injEq] at hk
      subst hk
      refine ⟨m.take i, (m.drop i).takeWhile Char.isDigit, tail, ?_, h3, ?_⟩
      · conv_lhs => rw [← List.take_append_drop i m,
          ← List.takeWhile_append_dropWhile (p := Char.isDigit) (l := m.drop i)]
        rw [hdw, List.append_assoc]
      · exact fun c hc => List.mem_takeWhile_imp hc
  · rintro ⟨l, ds, r, rfl, h3, hdig⟩
    rw [List.any_eq_true]
    refine ⟨l.length, ?_, ?_⟩
    · rw [List.mem_range]
      simp only [List.length_append]
      omega
    · have hd : (l ++ ds ++ 'k' :: r).drop l.length = ds ++ 'k' :: r := by
        rw [List.append_assoc, List.drop_left]
      have hta := takeWhile_all (p := Char.isDigit) ('k' :: r) hdig
      simp only [matchD3KAt, List.span_eq_take_drop, Bool.and_eq_true,
        decide_eq_true_eq, hd, hta.1, hta.2]
      constructor
      · rw [List.takeWhile_cons_of_neg (by decide)]
        simp only [List.append_nil]
        omega
      · rw [List.dropWhile_cons_of_neg (by decide)]
        rfl

theorem d6_iff {m : List Char} :
    ((List.range (m.length + 1)).any fun i => matchD6At (m.drop i)) = true ↔
      ∃ l ds r, m = l ++ ds ++ r ∧ ds.length = 6 ∧
        ∀ c ∈ ds, c.isDigit = true := by
  constructor
  · intro h
    rw [List.any_eq_true] at h
    obtain ⟨i, -, hm⟩ := h
    simp only [matchD6At, List.span_eq_take_drop, decide_eq_true_eq] at hm
    refine ⟨m.take i, ((m.drop i).takeWhile Char.isDigit).take 6,
      ((m.drop i).takeWhile Char.isDigit).drop 6 ++
        (m.drop i).dropWhile Char.isDigit, ?_, ?_, ?_⟩
    · symm
      rw [List.append_assoc, ← List.append_assoc
          (List.take 6 (List.takeWhile Char.isDigit (List.drop i m))),
        List.take_append_drop, List.takeWhile_append_dropWhile,
        List.take_append_drop]
    · rw [List.length_take]
      omega
    · exact fun c hc => List.mem_takeWhile_imp (List.take_subset 6 _ hc)
  · rintro ⟨l, ds, r, rfl, h6, hdig⟩
    rw [List.any_eq_true]
    refine ⟨l.length, ?_, ?_⟩
    · rw [List.mem_range]
      simp only [List.length_append]
      omega
    · have hd : (l ++ ds ++ r).drop l.length = ds ++ r := by
        rw [List.append_assoc, List.drop_left]
      have hta := takeWhile_all (p := Char.isDigit) r hdig
      simp only [matchD6At, List.span_eq_take_drop, decide_eq_true_eq, hd,
        hta.1, List.length_append]
      omega

theorem decM_iff {m : List Char} :
    ((List.range (m.length + 1)).any fun i => matchDecMAt (m.drop i)) = true ↔
      ∃ l d cs es r, m = l ++ (d :: (cs ++ '.' :: (es ++ 'm' :: r))) ∧
        d.isDigit = true ∧ (∀ c ∈ cs, (c.isDigit || c = ',') = true) ∧
        es ≠ [] ∧ ∀ c ∈ es, c.isDigit = true := by
  constructor
  · intro h
    rw [List.any_eq_true] at h
    obtain ⟨i, -, hm⟩ := h
    cases hdi : m.drop i with
    | nil => rw [hdi] at hm; simp [matchDecMAt] at hm
    | cons d rest =>
      rw [hdi] at hm
      simp only [matchDecMAt, List.span_eq_take_drop, Bool.and_eq_true] at hm
      obtain ⟨hd, hm2⟩ := hm
      split at hm2
      case h_2 => simp at hm2
      case h_1 x t heq =>
        simp only [Bool.and_eq_true, decide_eq_true_eq] at hm2
        obtain ⟨hesne, hmm⟩ := hm2
        cases hdw2 : t.dropWhile Char.isDigit with
        | nil => rw [hdw2] at hmm; simp at hmm
        | cons m0 tail =>
          rw [hdw2] at hmm
          simp only [List.head?_cons, Option.some.injEq] at hmm
          subst hmm
          refine ⟨m.take i, d, rest.takeWhile fun c => c.isDigit || c = ',',
            t.takeWhile Char.isDigit, tail, ?_, hd, ?_, ?_, ?_⟩
          · have h1 : rest = rest.takeWhile (fun c => c.isDigit || c = ',') ++
                ('.' :: t) := by
              conv_lhs => rw [← List.takeWhile_append_dropWhile
                (p := fun c => c.isDigit || c = ',') (l := rest)]
              rw [heq]
            have h2 : t = t.takeWhile Char.isDigit ++ ('m' :: tail) := by
              conv_lhs => rw [← List.takeWhile_append_dropWhile
                (p := Char.isDigit) (l := t)]
              rw [hdw2]
            conv_lhs => rw [← List.take_append_drop i m]
            rw [hdi]
            conv_lhs => rw [h1, h2]
          · intro c hc
            exact List.mem_takeWhile_imp (p := fun c => c.isDigit || c = ',') hc
          · simpa using hesne
          · intro c hc
            exact List.mem_takeWhile_imp hc
  · rintro ⟨l, d, cs, es, r, rfl, hd, hcs, hesne, hes⟩
    rw [List.any_eq_true]
    refine ⟨l.length, ?_, ?_⟩
    · rw [List.mem_range]
      simp only [List.length_append]
      omega
    · have hdl : (l ++ (d :: (cs ++ '.' :: (es ++ 'm' :: r)))).drop l.length =
          d :: (cs ++ '.' :: (es ++ 'm' :: r)) := List.drop_left _ _
      have hta := takeWhile_all (p := fun c => c.isDigit || c = ',')
        ('.' :: (es ++ 'm' :: r)) hcs
      have htb := takeWhile_all (p := Char.isDigit) ('m' :: r) hes
      simp only [matchDecMAt, List.span_eq_take_drop, Bool.and_eq_true, hdl]
      refine ⟨hd, ?_⟩
      rw [hta.2, List.dropWhile_cons_of_neg (by decide)]
      simp only [htb.1, htb.2]
      rw [List.takeWhile_cons_of_neg (by decide),
        List.dropWhile_cons_of_neg (by decide)]
      simp only [List.append_nil, Bool.and_eq_true, decide_eq_true_eq]
      exact ⟨by simpa using hesne, rfl⟩

theorem d3k_pyStrip {y : List Char}
    (h : ((List.range (y.length + 1)).any fun i =>
      matchD3KAt (y.drop i)) = true) :
    ((List.range ((pyStrip y).length + 1)).any fun i =>
      matchD3KAt ((pyStrip y).drop i)) = true := by
  obtain ⟨l, ds, r, hy, h3, hdig⟩ := d3k_iff.mp h
  have hp : ds ++ ['k'] <:+: y :=
    ⟨l, r, by rw [hy]; simp [List.append_assoc]⟩
  have hh : ∀ c, (ds ++ ['k']).head? = some c → pyIsSpace c = false := by
    intro c hc
    cases ds with
    | nil => simp at h3
    | cons a tl =>
      simp only [List.cons_append, List.head?_cons, Option.some.injEq] at hc
      rw [← hc]
      exact isDigit_not_space (hdig a (List.mem_cons_self a tl))
  have hl : ∀ c, (ds ++ ['k']).getLast? = some c → pyIsSpace c = false := by
    intro c hc
    rw [List.getLast?_concat] at hc
    simp only [Option.some.injEq] at hc
    rw [← hc]
    decide
  obtain ⟨l', r', h'⟩ := infix_pyStrip hp hh hl
  apply d3k_iff.mpr
  refine ⟨l', ds, r', ?_, h3, hdig⟩
  rw [← h']
  simp [List.append_assoc]

theorem d6_pyStrip {y : List Char}
    (h : ((List.range (y.length + 1)).any fun i =>
      matchD6At (y.drop i)) = true) :
    ((List.range ((pyStrip y).length + 1)).any fun i =>
      matchD6At ((pyStrip y).drop i)) = true := by
  obtain ⟨l, ds, r, hy, h6, hdig⟩ := d6_iff.mp h
  have hp : ds <:+: y := ⟨l, r, hy.symm⟩
  have hh : ∀ c, ds.head? = some c → pyIsSpace c = false := by
    intro c hc
    exact isDigit_not_space (hdig c (List.mem_of_mem_head? (by simp [hc])))
  have hl : ∀ c, ds.getLast? = some c → pyIsSpace c = false := by
    intro c hc
    exact isDigit_not_space (hdig c (List.mem_of_mem_getLast? hc))
  obtain ⟨l', r', h'⟩ := infix_pyStrip hp hh hl
  exact d6_iff.mpr ⟨l', ds, r', h'.symm, h6, hdig⟩

theorem decM_pyStrip {y : List Char}
    (h : ((List.range (y.length + 1)).any fun i =>
      matchDecMAt (y.drop i)) = true) :
    ((List.range ((pyStrip y).length + 1)).any fun i =>
      matchDecMAt ((pyStrip y).drop i)) = true := by
  obtain ⟨l, d, cs, es, r, hy, hd, hcs, hesne, hes⟩ := decM_iff.mp h
  have hp : d :: (cs ++ '.' :: (es ++ ['m'])) <:+: y :=
    ⟨l, r, by rw [hy]; simp [List.append_assoc]⟩
  have hh : ∀ c, (d :: (cs ++ '.' :: (es ++ ['m']))).head? = some c →
      pyIsSpace c = false := by
    intro c hc
    simp only [List.head?_cons, Option.some.injEq] at hc
    rw [← hc]
    exact isDigit_not_space hd
  have hlast : (d :: (cs ++ '.' :: (es ++ ['m']))).getLast? = some 'm' := by
    have he : d :: (cs ++ '.' :: (es ++ ['m'])) =
        (d :: (cs ++ '.' :: es)) ++ ['m'] := by
      simp [List.append_assoc]
    rw [he, List.getLast?_concat]
  have hl : ∀ c, (d :: (cs ++ '.' :: (es ++ ['m']))).getLast? = some c →
      pyIsSpace c = false := by
    intro c hc
    rw [hlast] at hc
    simp only [Option.some.injEq] at hc
    rw [← hc]
    decide
  obtain ⟨l', r', h'⟩ := infix_pyStrip hp hh hl
  apply decM_iff.mpr
  refine ⟨l', d, cs, es, r', ?_, hd, hcs, hesne, hes⟩
  rw [← h']
  simp [List.append_assoc]

/-!
## Detector stability under the classifier's normalisation
-/

theorem contains_location_stable {m : List Char}
    (h : contains_location m = true) :
    contains_location (pyStrip (pyLower m)) = true := by
  rw [contains_location, List.any_eq_true] at h ⊢
  obtain ⟨loc, hloc, hc⟩ := h
  refine ⟨loc, hloc, ?_⟩
  rw [listContains_iff] at hc ⊢
  rw [pyLower_pyStrip, pyLower_idem]
  have hfacts : ∀ w ∈ DUBAI_LOCATIONS,
      w ≠ [] ∧ nsOk w.head? = true ∧ nsOk w.getLast? = true := by decide
  obtain ⟨-, hh, hl⟩ := hfacts loc hloc
  exact infix_pyStrip hc (nsOk_spec hh) (nsOk_spec hl)

theorem has_property_type_stable {m : List Char}
    (h : has_property_type m = true) :
    has_property_type (pyStrip (pyLower m)) = true := by
  rw [has_property_type] at h ⊢
  rw [pyLower_pyStrip, pyLower_idem]
  refine boundedSearch_pyStrip ?_ h
  decide

theorem has_price_stable {m : List Char} (h : has_price m = true) :
    has_price (pyStrip (pyLower m)) = true := by
  rw [has_price] at h ⊢
  simp only [Bool.or_eq_true] at h ⊢
  rw [pyLower_pyStrip, pyLower_idem]
  rcases h with ((h1 | h2) | h3) | h4
  · exact Or.inl (Or.inl (Or.inl (boundedSearch_pyStrip (by decide) h1)))
  · exact Or.inl (Or.inl (Or.inr (d3k_pyStrip h2)))
  · exact Or.inl (Or.inr (decM_pyStrip h3))
  · exact Or.inr (d6_pyStrip h4)

/-!
## Claim theorems: classifier
-/

/-- C1: a message that contains a gazetteer location together with a
recognised property type or price signal is never classified as a follow-up,
even with an active session and even if it also contains follow-up signal
words — the fresh-request rule is evaluated before the follow-up-signal
rules. -/
theorem C1_fresh_request_beats_followup_signal (m : List Char)
    (hloc : contains_location m = true)
    (hspec : has_property_type m = true ∨ has_price m = true) :
    is_followup m true = false := by
  have h1 := contains_location_stable hloc
  have h2 : (has_property_type (pyStrip (pyLower m)) ||
      has_price (pyStrip (pyLower m))) = true := by
    rcases hspec with hs | hs
    · simp [has_property_type_stable hs]
    · simp [has_price_stable hs]
  rw [is_followup]
  simp only [Bool.not_true, Bool.false_eq_true, if_false]
  rw [if_pos (by rw [h1, h2]; rfl)]

/-- C8: a whitespace-only message with an active session is classified as a
follow-up (by the short/location-less rule), and without a session
`is_followup` is false for every message whatsoever. -/
theorem C8_empty_message_and_no_session (m : List Char) :
    ((∀ c ∈ m, pyIsSpace c = true) → is_followup m true = true) ∧
      is_followup m false = false := by
  constructor
  · intro hsp
    have hml : pyStrip (pyLower m) = [] := by
      have hall : (pyLower m).dropWhile pyIsSpace = [] := by
        rw [List.dropWhile_eq_nil_iff]
        intro c hc
        rw [pyLower, List.mem_map] at hc
        obtain ⟨c0, hc0, rfl⟩ := hc
        rw [pyIsSpace_lowChar]
        exact hsp c0 hc0
      rw [pyStrip, hall]
      rfl
    rw [is_followup]
    simp only [Bool.not_true, Bool.false_eq_true, if_false]
    rw [hml]
    rfl
  · rw [is_followup]
    rfl

/-!
## Extractor lemmas
-/

theorem pyTitleGo_length (b : Bool) (s : List Char) :
    (pyTitleGo b s).length = s.length := by
  induction s generalizing b with
  | nil => rfl
  | cons c cs ih => simp [pyTitleGo, ih]

theorem pyTitle_length (s : List Char) : (pyTitle s).length = s.length :=
  pyTitleGo_length false s

theorem pyStrip_ne_nil {s : List Char} {c : Char} (hc : c ∈ s)
    (hsp : pyIsSpace c = false) : pyStrip s ≠ [] := by
  intro h
  rw [pyStrip, List.reverse_eq_nil_iff, List.dropWhile_eq_nil_iff] at h
  have hcd : c ∈ s.dropWhile pyIsSpace := by
    rcases List.mem_append.mp
        (by rw [List.takeWhile_append_dropWhile]; exact hc :
          c ∈ s.takeWhile pyIsSpace ++ s.dropWhile pyIsSpace) with h1 | h1
    · exact absurd (List.mem_takeWhile_imp h1) (by simp [hsp])
    · exact h1
  have := h c (by simpa using hcd)
  simp [hsp] at this

theorem matchPriceAt_shape {s m : List Char} (h : matchPriceAt s = some m) :
    ∃ t, m = 'A' :: 'E' :: 'D' :: t := by
  simp only [matchPriceAt] at h
  split at h
  · split at h
    · exact absurd h (by simp)
    · simp only [Option.some.injEq] at h
      exact ⟨_, h.symm⟩
  · exact absurd h (by simp)

theorem searchPrice_shape {r m : List Char} (h : searchPrice r = some m) :
    ∃ t, m = 'A' :: 'E' :: 'D' :: t := by
  obtain ⟨i, -, hm⟩ := List.exists_of_findSome?_eq_some h
  exact matchPriceAt_shape hm

theorem matchBuyAt_ne_nil {s m : List Char} (h : matchBuyAt s = some m) :
    m ≠ [] := by
  simp only [matchBuyAt] at h
  obtain ⟨w, -, hw⟩ := List.exists_of_findSome?_eq_some h
  split at hw
  · split at hw
    · exact absurd hw (by simp)
    · split at hw
      · next hne _ =>
        simp only [Option.some.injEq] at hw
        intro hnil
        rw [← hw] at hnil
        have := congrArg List.length hnil
        simp only [List.length_append, List.length_nil] at this
        have h2 : (List.span pyIsSpace (s.drop w.length)).1.length ≠ 0 := by
          simpa [List.length_eq_zero, List.isEmpty_iff] using hne
        omega
      · exact absurd hw (by simp)
  · exact absurd hw (by simp)

theorem factsList_ne_nil_mem {r f : List Char} (hf : f ∈ factsList r) :
    f ≠ [] := by
  rw [factsList, List.reduceOption_mem_iff] at hf
  simp only [List.mem_cons, List.not_mem_nil, or_false] at hf
  rcases hf with h | h | h | h | h | h | h | h <;> replace h := h.symm
  · rw [locFact, Option.map_eq_some'] at h
    obtain ⟨loc, hloc, rfl⟩ := h
    have hmem := List.mem_of_find?_eq_some hloc
    have hne : loc ≠ [] := by
      have : ∀ w ∈ DUBAI_LOCATIONS, w ≠ [] := by decide
      exact this loc hmem
    intro hcon
    exact hne (by
      have := congrArg List.length hcon
      rw [pyTitle_length] at this
      exact List.length_eq_zero.mp this)
  · rw [priceFact, Option.map_eq_some'] at h
    obtain ⟨pm, hpm, rfl⟩ := h
    obtain ⟨t, rfl⟩ := searchPrice_shape hpm
    exact pyStrip_ne_nil (List.mem_cons_self _ _) (by decide)
  · rw [scoreFact, Option.map_eq_some'] at h
    obtain ⟨ds, -, rfl⟩ := h
    simp
  · rw [goFact] at h
    split at h
    · simp only [Option.some.injEq] at h
      rw [← h]
      simp
    · split at h
      · simp only [Option.some.injEq] at h
        rw [← h]
        simp
      · exact absurd h (by simp)
  · rw [buyFact, Option.map_eq_some'] at h
    obtain ⟨bm, hbm, rfl⟩ := h
    rw [searchBuy] at hbm
    obtain ⟨i, -, hmi⟩ := List.exists_of_findSome?_eq_some hbm
    have := matchBuyAt_ne_nil hmi
    simpa [pyUpper, List.map_eq_nil_iff] using this
  · rw [chillerFact] at h
    split at h
    · simp only [Option.some.injEq] at h
      rw [← h]
      simp
    · exact absurd h (by simp)
  · rw [yieldFact, Option.map_eq_some'] at h
    obtain ⟨⟨g1, g2⟩, -, rfl⟩ := h
    intro hcon
    have := congrArg List.length hcon
    simp [List.length_append] at this
  · rw [oversupplyFact] at h
    split at h
    · simp only [Option.some.injEq] at h
      rw [← h]
      simp
    · exact absurd h (by simp)

theorem joinComma_cons {p : List Char} {ps : List (List Char)} (h : ps ≠ []) :
    joinComma (p :: ps) = p ++ ", ".toList ++ joinComma ps := by
  cases ps with
  | nil => exact absurd rfl h
  | cons q qs => rfl

theorem joinComma_head_pfx (f : List Char) (fs : List (List Char)) :
    f <+: joinComma (f :: fs) := by
  cases fs with
  | nil => exact List.prefix_refl f
  | cons g gs =>
    rw [joinComma_cons (by simp), List.append_assoc]
    exact List.prefix_append f _

theorem joinComma_ne_nil {f : List Char} {fs : List (List Char)}
    (hf : f ≠ []) : joinComma (f :: fs) ≠ [] := by
  cases fs with
  | nil => exact hf
  | cons g gs =>
    rw [joinComma_cons (by simp)]
    intro hcon
    have := congrArg List.length hcon
    simp at this

theorem pfx_take {f x : List Char} {n : Nat} (h : f <+: x)
    (hn : f.length ≤ n) : f <+: x.take n := by
  obtain ⟨t, rfl⟩ := h
  rw [List.take_append_eq_append_take, List.take_of_length_le hn]
  exact List.prefix_append f _

/-!
## Claim theorems: extractor
-/

/-- C7: the extractor's digest is at most 250 characters; when no rule
matches it is exactly the first 150 characters of the response with newlines
replaced by spaces; and it is non-empty whenever the response is. -/
theorem C7_extractor_fallback_and_bounds (r : List Char) :
    (extract_key_facts r).length ≤ 250 ∧
    (factsList r = [] → extract_key_facts r =
      (r.take 150).map fun c => if c = '\n' then ' ' else c) ∧
    (r ≠ [] → extract_key_facts r ≠ []) := by
  refine ⟨extract_le_250 r, ?_, ?_⟩
  · intro h
    rw [extract_key_facts, if_pos h]
    apply List.take_of_length_le
    have := List.length_take_le 150 r
    rw [List.length_map]
    omega
  · intro hr
    cases hfl : factsList r with
    | nil =>
      rw [extract_key_facts, if_pos hfl]
      simp only [ne_eq, List.take_eq_nil_iff, List.map_eq_nil_iff, hr,
        or_false]
      omega
    | cons f fs =>
      rw [extract_key_facts, if_neg (by rw [hfl]; simp), hfl]
      have hne := @joinComma_ne_nil f fs
        (factsList_ne_nil_mem (by rw [hfl]; exact List.mem_cons_self f fs))
      simp only [ne_eq, List.take_eq_nil_iff, hne, or_false]
      omega

/-- Modelled from the spec (comparison definition for C5): the gazetteer
location whose occurrence starts at the earliest position in the response,
which is how the claim reads "first gazetteer location found anywhere in the
response". -/
def specEarliestLocation (r : List Char) : Option (List Char) :=
  (List.range (r.length + 1)).findSome? fun i =>
    DUBAI_LOCATIONS.find? fun loc => loc.isPrefixOf ((pyLower r).drop i)

/-- C5 counterexample: in `"palm marina"` the earliest-position location is
`"palm"`, but the extractor emits `"Marina"`, because the loop takes the
first location in gazetteer iteration order, not the earliest occurrence. -/
theorem C5_counterexample :
    specEarliestLocation "palm marina".toList = some "palm".toList ∧
    extract_key_facts "palm marina".toList = "Marina".toList ∧
    pyTitle "palm".toList = "Palm".toList ∧
    "Marina".toList ≠ "Palm".toList := by
  refine ⟨by decide, by decide, by decide, by decide⟩

/-- C5 amended: the first fact fragment is the title-cased first location in
the gazetteer's (modelled) iteration order whose text occurs anywhere in the
response — not necessarily the location occurring at the earliest position —
and it is a prefix of the whole digest. -/
theorem C5_amended_location_rule (r loc : List Char)
    (h : DUBAI_LOCATIONS.find?
      (fun loc => listContains (pyLower loc) (pyLower r)) = some loc) :
    locFact r = some (pyTitle loc) ∧ pyTitle loc <+: extract_key_facts r := by
  have hfact : locFact r = some (pyTitle loc) := by
    rw [locFact, h]
    rfl
  refine ⟨hfact, ?_⟩
  have hlen : (pyTitle loc).length ≤ 250 := by
    rw [pyTitle_length]
    have hmem := List.mem_of_find?_eq_some h
    have : ∀ w ∈ DUBAI_LOCATIONS, w.length ≤ 250 := by decide
    exact this loc hmem
  have hfl : factsList r = pyTitle loc :: [priceFact r, scoreFact r, goFact r,
      buyFact r, chillerFact r, yieldFact r, oversupplyFact r].reduceOption := by
    rw [factsList, hfact]
    rfl
  rw [extract_key_facts, if_neg (by rw [hfl]; simp), hfl]
  exact pfx_take ((joinComma_head_pfx _ _).trans (List.prefix_refl _)) hlen

/-- Modelled from the spec (comparison definition for C6): the same AED price
matcher with the currency token compared case-insensitively, which is how
the claim reads rule 2's "(case-insensitive)". -/
def matchPriceCIAt (s : List Char) : Option (List Char) :=
  if "aed".toList.isPrefixOf (pyLower s) then
    let s1 := s.drop 3
    let pws := s1.span pyIsSpace
    let pdg := pws.2.span fun c => c.isDigit || c = ','
    if pdg.1.isEmpty then none
    else
      let dec :=
        match pdg.2 with
        | '.' :: t =>
            let q := t.span Char.isDigit
            if q.1.isEmpty then ([], pdg.2) else ('.' :: q.1, q.2)
        | _ => ([], pdg.2)
      let suf :=
        let pws2 := dec.2.span pyIsSpace
        match pws2.2.head? with
        | some c =>
            if c = 'M' || c = 'm' || c = 'K' || c = 'k' then
              pws2.1 ++ [c]
            else []
        | none => []
      some (s.take 3 ++ pws.1 ++ pdg.1 ++ dec.1 ++ suf)
  else none

/-- Modelled from the spec (comparison definition for C6): case-insensitive
leftmost search of the AED price pattern. -/
def searchPriceSpecCI (r : List Char) : Option (List Char) :=
  (List.range (r.length + 1)).findSome? fun i => matchPriceCIAt (r.drop i)

/-- C6 counterexample: `"aed 500,000"` matches the case-insensitive reading
of the price rule, yet the extractor emits no price fragment at all (its
facts list is empty and the result falls back to the raw excerpt), because
the source's regex requires the uppercase text `AED`. -/
theorem C6_counterexample :
    searchPriceSpecCI "aed 500,000".toList = some "aed 500,000".toList ∧
    priceFact "aed 500,000".toList = none ∧
    factsList "aed 500,000".toList = [] ∧
    extract_key_facts "aed 500,000".toList = "aed 500,000".toList := by
  refine ⟨by decide, by decide, by decide, by decide⟩

/-- C6 amended: the price rule is case-sensitive in the currency token —
every match starts with the uppercase text `AED` (only the trailing `M`/`K`
may be either case) — and whenever the case-sensitive pattern matches, its
stripped text is emitted as a fact fragment. -/
theorem C6_amended_price_rule (r m : List Char) (h : searchPrice r = some m) :
    pyStrip m ∈ factsList r ∧ "AED".toList <+: m := by
  constructor
  · have hp : priceFact r = some (pyStrip m) := by
      rw [priceFact, h]
      rfl
    rw [factsList, List.reduceOption_mem_iff]
    simp only [List.mem_cons]
    exact Or.inr (Or.inl hp.symm)
  · obtain ⟨t, rfl⟩ := searchPrice_shape h
    exact ⟨t, rfl⟩

/-!
## Concrete witnesses
-/

/-- A concrete session used by the witnesses. -/
def sampleSession (la : ℤ) : Session :=
  { summary := "Prior: q → Marina".toList
    last_query := "q".toList
    last_response_snippet := []
    turn_count := 1
    last_activity := la }

/-- A concrete one-user store used by the witnesses. -/
def sampleStore (la : ℤ) : Store :=
  fun v => if v = "alice" then some (sampleSession la) else none

theorem C1_witness :
    is_followup "cheaper 2br in marina".toList true = false :=
  C1_fresh_request_beats_followup_signal _ (by decide) (Or.inl (by decide))

theorem C2_witness :
    ("Prior: find 2br → Marina, AED 2,100,000".toList).length ≤ 500 :=
  C2_summary_bound_invariant
    [⟨0, "alice", "find 2br".toList, "Dubai Marina. AED 2,100,000".toList⟩]
    0 "alice" _ (by decide)

theorem C3_witness :
    ∃ s', update (sampleStore 0) 5 "alice" "q2".toList "JBR. GO".toList
        "alice" = some s' ∧
      thenText "q2".toList (extract_key_facts "JBR. GO".toList) <:+
        s'.summary ∧
      ∃ k, s'.summary = joinSep ((splitSep ((sampleSession 0).summary ++
        SEP ++ thenText "q2".toList
          (extract_key_facts "JBR. GO".toList))).drop k) :=
  C3_compaction_recency (sampleStore 0) 5 "alice" _ _ (sampleSession 0)
    (by decide) (by decide)

theorem C4_witness :
    (has_session (sampleStore 0) 1800 "alice").1 = true ∧
    (has_session (sampleStore 0) 1801 "alice").2 "alice" = none ∧
    (get_context (sampleStore 0) 1801 "alice").1 = none :=
  ⟨(C4_timeout_boundary_lazy_eviction (sampleStore 0) 1800 "alice").1.mpr
      ⟨sampleSession 0, by decide, by decide⟩,
    ((C4_timeout_boundary_lazy_eviction (sampleStore 0) 1801 "alice").2
      (sampleSession 0) (by decide) (by decide)).1,
    ((C4_timeout_boundary_lazy_eviction (sampleStore 0) 1801 "alice").2
      (sampleSession 0) (by decide) (by decide)).2.2.2⟩

theorem C5_witness :
    locFact "jbr deal".toList = some (pyTitle "jbr".toList) ∧
    pyTitle "jbr".toList <+: extract_key_facts "jbr deal".toList :=
  C5_amended_location_rule _ _ (by decide)

theorem C6_witness :
    pyStrip "AED 2.5M".toList ∈ factsList "see AED 2.5M now".toList ∧
    "AED".toList <+: "AED 2.5M".toList :=
  C6_amended_price_rule _ _ (by decide)

theorem C7_witness :
    (extract_key_facts "hello".toList).length ≤ 250 ∧
    extract_key_facts "hello".toList =
      ("hello".toList.take 150).map (fun c => if c = '\n' then ' ' else c) ∧
    extract_key_facts "hello".toList ≠ [] :=
  ⟨(C7_extractor_fallback_and_bounds _).1,
    (C7_extractor_fallback_and_bounds _).2.1 (by decide),
    (C7_extractor_fallback_and_bounds _).2.2 (by decide)⟩

theorem C8_witness :
    is_followup " ".toList true = true ∧
    is_followup "marina 2br".toList false = false :=
  ⟨(C8_empty_message_and_no_session _).1 (by decide),
    (C8_empty_message_and_no_session _).2⟩

theorem C9_witness :
    reset (reset (sampleStore 0) "alice") "alice" =
      reset (sampleStore 0) "alice" ∧
    (has_session (reset (sampleStore 0) "alice") 0 "alice").1 = false ∧
    reset (sampleStore 0) "bob" = sampleStore 0 ∧
    reset (sampleStore 0) "alice" "bob" = sampleStore 0 "bob" :=
  ⟨(C9_reset_idempotent_total (sampleStore 0) 0 "alice").1,
    (C9_reset_idempotent_total (sampleStore 0) 0 "alice").2.1,
    ((C9_reset_idempotent_total (sampleStore 0) 0 "bob").2.2.1 (by decide)).1,
    ((C9_reset_idempotent_total (sampleStore 0) 0 "alice").2.2.2 "bob"
      (by decide)).1⟩

theorem C10_witness :
    ((get_context (runOps []) 0 "alice").1.isSome =
      (has_session (runOps []) 0 "alice").1) ∧
    ∃ s', update (runOps []) 0 "alice" "q".toList "r".toList "alice" =
        some s' ∧
      "Prior: ".toList <+: s'.summary ∧ s'.summary ≠ [] :=
  ⟨(C10_context_iff_session [] 0 "alice").1,
    (C10_context_iff_session [] 0 "alice").2 rfl 0 "q".toList "r".toList⟩

end Conv
